import Mathlib

/-!
Shallow embedding of `compiler/lib/Transforms/GraphClusteringByDevice.cpp`
(byteir). Operations are modelled as records indexed by natural-number ids
in a flat environment; a value is identified with the id of its defining
operation (block arguments are `none` operands). Region nesting is kept by
storing the ids of nested operations; recursive region walks from the
source (`isHostOp`, `anyDefIn`, `anyUseIn`, `isAncestor`) are rendered as
fuel-bounded recursions with fuel `env.length + 1`, which dominates any
acyclic nesting/operand depth of the environment.
-/

/-- One MLIR operation: its operand values (`some d` = result of op `d`,
`none` = block argument), the string value of the device attribute if
present, the nested regions (each region a list of blocks, each block a
list of op ids), and whether the op is `mhlo`-constant-like (the external
helper `isMhloConstantLike` is modelled as this field). -/
structure OpRec where
  operands : List (Option Nat)
  attrVal : Option String
  regions : List (List Nat)
  constantLike : Bool
deriving DecidableEq

/-- The op store: op id `i` denotes `env[i]`. -/
abbrev Env := List OpRec

def getOp (env : Env) (i : Nat) : Option OpRec := env[i]?

/-- Fuel-bounded body of `isHostOp` (source lines 74-91): an op is host if
any op nested in its regions is (recursively) host, or it carries the
device attribute with value "host". -/
def isHostOpGo (env : Env) : Nat → Nat → Bool
  | 0, _ => false
  | fuel+1, i =>
    match getOp env i with
    | none => false
    | some o =>
      o.regions.any (fun blk => blk.any (isHostOpGo env fuel)) ||
        o.attrVal == some "host"

/-- `isHostOp` from the source, with fuel covering any acyclic nesting. -/
def isHostOp (env : Env) (i : Nat) : Bool := isHostOpGo env (env.length + 1) i

/-- Ids of the defining ops of `i`'s operands (block arguments dropped),
i.e. the ops visited by `insertOpsRecursively`'s operand loop. -/
def definingOps (env : Env) (i : Nat) : List Nat :=
  match getOp env i with
  | none => []
  | some o => o.operands.filterMap id

/-- Fuel-bounded `insertOpsRecursively` (source lines 63-72): insert `i`,
then recurse into the defining op of every operand. The accumulator is an
insertion-ordered duplicate-free list standing for the `SmallDenseSet`. -/
def insertOpsRecursivelyGo (env : Env) : Nat → Nat → List Nat → List Nat
  | 0, _, s => s
  | fuel+1, i, s =>
    if s.contains i then s
    else (definingOps env i).foldl
      (fun acc d => insertOpsRecursivelyGo env fuel d acc) (s ++ [i])

def insertOpsRecursively (env : Env) (i : Nat) (s : List Nat) : List Nat :=
  insertOpsRecursivelyGo env (env.length + 1) i s

/-- The `hostOps` set of `getFunctionMetadatasFallback` (source lines
99-104): seed with the directly host ops of the block (the block is the
list of non-terminator op ids, in order) and close over operand chains. -/
def hostOpsFallback (env : Env) (blk : List Nat) : List Nat :=
  blk.foldl (fun s i => if isHostOp env i then insertOpsRecursively env i s else s) []

/-- Number of uses of the (single) result of op `i` over the whole
environment; models `op.getResult(0).hasOneUse()` via `useCount = 1`. -/
def useCount (env : Env) (i : Nat) : Nat :=
  (env.map (fun o => o.operands.count (some i))).sum

/-- The op owning the single use of `i`'s result (meaningful when
`useCount env i = 1`); models `*op.getResult(0).getUsers().begin()`. -/
def soleUser (env : Env) (i : Nat) : Option Nat :=
  env.findIdx? (fun o => o.operands.contains (some i))

/-- The constructor rule of `DeviceClusteringAlgoBaseHelper` (source lines
411-417): a constant-like op whose only use is held by a host op is also
skipped when populating `op2cluster`. -/
def skipForHostConstant (env : Env) (i : Nat) : Bool :=
  match getOp env i with
  | none => false
  | some o =>
    o.constantLike && useCount env i == 1 &&
      (match soleUser env i with
       | some u => isHostOp env u
       | none => false)

/-- The ops that receive a singleton `ActiveDeviceCluster` in the
`DeviceClusteringAlgoBaseHelper` constructor (source lines 404-420): every
non-terminator op that is not directly host and not a host-only constant.
These are exactly the ops ever contained in any cluster. -/
def initialClusterOps (env : Env) (blk : List Nat) : List Nat :=
  blk.filter fun i => !(isHostOp env i) && !(skipForHostConstant env i)

/-- A produced partition descriptor. `inputs`/`results` are computed by the
external helpers `getInputsOfCluster`/`getOutputsOfCluster` (outside this
translation unit) and are not part of the model. -/
structure FunctionMetadata where
  anchorName : String
  deviceAttr : String
  ops : List Nat
deriving DecidableEq

/-- Modelled from the spec: the external `getHostAnchorName()` returns the
fixed host anchor tag; its concrete value is immaterial to the claims. -/
def hostAnchorName : String := "byteir.host_anchor"

/-- `getFunctionMetadatasFallback` (source lines 93-156): a host entry with
exactly the ops of the closure `hostOps` (emitted iff `hostOps` nonempty,
never validated), then a device entry with the remaining non-terminator
ops (emitted iff nonempty and accepted by `validateSubGraphFn`; rejection
makes the whole strategy return `none`). `validate = none` models a null
`ValidateSubGraphFn`. -/
def getFunctionMetadatasFallback (env : Env) (blk : List Nat)
    (deviceAttr anchor : String) (validate : Option (List Nat → Bool)) :
    Option (List FunctionMetadata) :=
  let hostOps := hostOpsFallback env blk
  let hostMetas : List FunctionMetadata :=
    if hostOps.length > 0 then
      [⟨hostAnchorName, "host", blk.filter (fun i => hostOps.contains i)⟩]
    else []
  let deviceOps := blk.filter (fun i => !(hostOps.contains i))
  if deviceOps.length > 0 then
    match validate with
    | some f =>
      if !(f deviceOps) then none
      else some (hostMetas ++ [⟨anchor, deviceAttr, deviceOps⟩])
    | none => some (hostMetas ++ [⟨anchor, deviceAttr, deviceOps⟩])
  else some hostMetas

/-- The candidate loop of `DeviceClusteringAlgoBaseHelper::getFunctionMetadatas`
(source lines 445-463): skip empty clusters, skip clusters rejected by the
validator, and stop after the first accepted cluster unless
`enableMultiGraph`. Only the op lists matter here. -/
def selectClusters (validate : Option (List Nat → Bool)) (multi : Bool) :
    List (List Nat) → List (List Nat)
  | [] => []
  | c :: rest =>
    if c.isEmpty then selectClusters validate multi rest
    else if (match validate with | some f => !(f c) | none => false) then
      selectClusters validate multi rest
    else c :: (if multi then selectClusters validate multi rest else [])

/-- `DeviceClusteringAlgoBaseHelper::getFunctionMetadatas` (source lines
422-466), at the level of cluster op lists: `none` exactly when there are
no candidates or the first (largest) candidate is empty; otherwise the
(possibly empty) list collected by the candidate loop. -/
def getFunctionMetadatasClustered (candidates : List (List Nat))
    (validate : Option (List Nat → Bool)) (multi : Bool) :
    Option (List (List Nat)) :=
  match candidates with
  | [] => none
  | c0 :: _ =>
    if c0.isEmpty then none
    else some (selectClusters validate multi candidates)

/-- The per-function failure test of `GraphClustingByDevice` (source lines
775-779): the pass emits the function-level diagnostic and returns
`failure()` exactly when the strategy produced no metadata vector at all. -/
def graphClusteringFails (metadatas : Option (List (List Nat))) : Bool :=
  metadatas.isNone

/-- Total operation count covered by a metadata vector: the
`std::accumulate` of `metadata.ops.size()` (source lines 730-739). -/
def totalOpsCovered (ms : List (List Nat)) : Nat := (ms.map List.length).sum

/-- The greedy strategy driver (source lines 714-765). `runTopDown` and
`runBottomUp` are the two clustering pipelines as functions of the input
function; cloning a function is value copy in this pure model, so the
measuring runs on the clones and the re-run on the original apply the same
function to the same value. -/
def greedyMetadatas {F : Type} (runTopDown runBottomUp : F → Option (List (List Nat)))
    (f : F) : Option (List (List Nat)) :=
  let topDownMetadatas := runTopDown f
  let bottomUpMetadatas := runBottomUp f
  match topDownMetadatas, bottomUpMetadatas with
  | some td, some bu =>
    if totalOpsCovered td > totalOpsCovered bu then runTopDown f else runBottomUp f
  | some _, none => runTopDown f
  | none, some _ => runBottomUp f
  | none, none => none

/-- State rewritten by `createCalls` for one metadata entry: the operand
lists of the non-terminator use sites, and the terminator's operand list
(`retOp`). Values are ids; call results are fresh ids. -/
structure CallIR where
  ops : List (List Nat)
  ret : List Nat
deriving DecidableEq

/-- `originalValue.replaceAllUsesExcept(newValue, retOp)`: substitute in
every non-terminator operand list. -/
def replaceUsesInOps (ops : List (List Nat)) (v n : Nat) : List (List Nat) :=
  ops.map (fun l => l.map (fun x => if x = v then n else x))

/-- The `retOperand2Indices` entry for value `v` (source lines 633-637):
indices of `v` in the terminator in descending order, because the loop
runs `i` from `numOperands - 1` down to `0` and `push_back`s. -/
def buildRetIndices (ret : List Nat) (v : Nat) : List Nat :=
  ((List.range ret.length).filter (fun i => ret[i]? == some v)).reverse

/-- The per-result loop of `createCalls` (source lines 641-658), processing
`(originalValue, newValue)` pairs. When `dupOutputs`: replace all uses
except the terminator, then take `.back()` of the (descending) index list,
`pop_back` it, and set that terminator operand. An exhausted or absent
index list skips the terminator update (an empty-but-present list trips an
assert in the source; release mode reads `back()` of an empty vector, so
this model is meaningful only under `count rs v ≤ count ret v`). When not
`dupOutputs`: `replaceAllUsesWith`, which also rewrites the terminator. -/
def createCallsLoop (dup : Bool) :
    List (Nat × Nat) → CallIR → (Nat → List Nat) → CallIR × (Nat → List Nat)
  | [], st, idx => (st, idx)
  | (v, n) :: rest, st, idx =>
    if dup then
      let ops1 := replaceUsesInOps st.ops v n
      match idx v with
      | [] => createCallsLoop dup rest ⟨ops1, st.ret⟩ idx
      | p :: ps =>
        let i := (p :: ps).getLastD 0
        createCallsLoop dup rest ⟨ops1, st.ret.set i n⟩
          (fun w => if w = v then (p :: ps).dropLast else idx w)
    else
      createCallsLoop dup rest
        ⟨replaceUsesInOps st.ops v n, st.ret.map (fun x => if x = v then n else x)⟩ idx

/-- `createCalls` restricted to one metadata entry (source lines 613-659):
`results` are the metadata's result values in order, `newVal i` the `i`-th
result of the cloned call. -/
def createCallsOne (dup : Bool) (st : CallIR) (results : List Nat)
    (newVal : Nat → Nat) : CallIR :=
  (createCallsLoop dup (results.enum.map (fun p => (p.2, newVal p.1))) st
    (fun v => buildRetIndices st.ret v)).1

/-- Reference rewrite following the amended spec wording: each result in
order replaces the first (lowest-index) remaining occurrence of its
original value in the terminator. -/
def replaceFirstRemaining : List (Nat × Nat) → List Nat → List Nat
  | [], ret => ret
  | (v, n) :: rest, ret =>
    match ret.findIdx? (fun x => x == v) with
    | none => replaceFirstRemaining rest ret
    | some i => replaceFirstRemaining rest (ret.set i n)

/-- One `ActiveDeviceCluster` record (source lines 158-167): the ordered op
list (a `SetVector`) and the union-find link. Links are arena indices. -/
structure ClusterRec where
  operations : List Nat
  mergedInto : Option Nat
deriving DecidableEq

/-- The storage of all cluster records (the values of the `op2cluster`
`DenseMap`, which is populated once and never resized, so record
addresses — here indices — are stable). -/
structure ClusterState where
  arena : List ClusterRec
deriving DecidableEq

def ClusterState.getRec (s : ClusterState) (i : Nat) : ClusterRec :=
  (s.arena[i]?).getD ⟨[], none⟩

def parentOf (s : ClusterState) (i : Nat) : Option Nat := (s.getRec i).mergedInto

def ClusterState.setMerged (s : ClusterState) (i : Nat) (p : Option Nat) : ClusterState :=
  ⟨s.arena.set i ⟨(s.getRec i).operations, p⟩⟩

def ClusterState.setOps (s : ClusterState) (i : Nat) (ops : List Nat) : ClusterState :=
  ⟨s.arena.set i ⟨ops, (s.getRec i).mergedInto⟩⟩

/-- Root lookup without the memoizing write-back, fuel-bounded. -/
def rootOfAux : Nat → ClusterState → Nat → Option Nat
  | 0, _, _ => none
  | fuel+1, s, i =>
    match parentOf s i with
    | none => some i
    | some j => rootOfAux fuel s j

def rootOf (s : ClusterState) (i : Nat) : Option Nat :=
  rootOfAux (s.arena.length + 1) s i

/-- `ActiveDeviceCluster::getRoot` (source lines 169-174) with its path
compression: follow the link, then redirect the link to the root found. -/
def getRootAux : Nat → ClusterState → Nat → Option (Nat × ClusterState)
  | 0, _, _ => none
  | fuel+1, s, i =>
    match parentOf s i with
    | none => some (i, s)
    | some j =>
      match getRootAux fuel s j with
      | none => none
      | some (r, s') => some (r, s'.setMerged i (some r))

/-- Total wrapper for `getRoot`; the default branch is unreachable for the
acyclic states the algorithm produces. -/
def getRootD (s : ClusterState) (i : Nat) : Nat × ClusterState :=
  (getRootAux (s.arena.length + 1) s i).getD (i, s)

/-- `DeviceClusteringAlgoBaseHelper::getCluster` (source lines 384-394):
map lookup followed by a compressing root find. `opc` is `op2cluster`'s
key → index view. -/
def getCluster (opc : Nat → Option Nat) (s : ClusterState) (op : Nat) :
    Option Nat × ClusterState :=
  match opc op with
  | none => (none, s)
  | some ci => let p := getRootD s ci; (some p.1, p.2)

/-- Fuel-bounded `ActiveDeviceCluster::anyDefIn` (source lines 199-214):
true if any op nested in `i`'s regions recursively has a def in
`operations`, or some operand of `i` is defined by a member of
`operations`. -/
def anyDefInGo (env : Env) : Nat → Nat → List Nat → Bool
  | 0, _, _ => false
  | fuel+1, i, operations =>
    match getOp env i with
    | none => false
    | some o =>
      o.regions.any (fun blk => blk.any (fun j => anyDefInGo env fuel j operations)) ||
        o.operands.any (fun v =>
          match v with
          | some d => operations.contains d
          | none => false)

def anyDefIn (env : Env) (i : Nat) (operations : List Nat) : Bool :=
  anyDefInGo env (env.length + 1) i operations

/-- Fuel-bounded `Operation::isAncestor`: `p` is `q` itself or transitively
contains `q` in a region. -/
def isAncestorGo (env : Env) : Nat → Nat → Nat → Bool
  | 0, _, _ => false
  | fuel+1, p, q =>
    p == q ||
      (match getOp env p with
       | none => false
       | some o => o.regions.any (fun blk => blk.any (fun c => isAncestorGo env fuel c q)))

def isAncestor (env : Env) (p q : Nat) : Bool := isAncestorGo env (env.length + 1) p q

/-- Owners of the uses of op `i`'s result: every op holding `some i` as an
operand (use-list of the result). -/
def useOwners (env : Env) (i : Nat) : List Nat :=
  (List.range env.length).filter (fun j =>
    match getOp env j with
    | none => false
    | some o => o.operands.contains (some i))

/-- `ActiveDeviceCluster::anyUseIn` (source lines 216-227): some use of
`i`'s result is owned by (an op nested inside) a member of `operations`. -/
def anyUseIn (env : Env) (i : Nat) (operations : List Nat) : Bool :=
  (useOwners env i).any (fun owner =>
    operations.any (fun p => isAncestor env p owner) || operations.contains owner)

/-- `SetVector::insert` of every cluster op into the residual, in the order
given (the whole-cluster cascade of source lines 247-253 / 278-284). -/
def cascadeInsert (remain : List Nat) (clOps : List Nat) : List Nat :=
  clOps.foldl (fun acc o => if acc.contains o then acc else acc ++ [o]) remain

/-- `SetVector::remove` of every cluster op from the move set (source lines
250-252 / 281-283). -/
def removeAll (moveSet : List Nat) (clOps : List Nat) : List Nat :=
  moveSet.filter (fun o => !(clOps.contains o))

/-- The common loop shape of `computeMoveUpSet` / `computeMoveDownSet`
(source lines 232-258 and 263-291): walk the drained `src` vector; skip
ops already forced into the residual; on a dependency conflict, pull the
op's whole root cluster (in `casc` order) into the residual and drop its
members from the move set — an op without a cluster goes in alone;
otherwise accept the op into the move set. The cluster state is threaded
because `getRoot` path-compresses. -/
def moveScan (dep : Nat → List Nat → Bool) (opc : Nat → Option Nat)
    (casc : List Nat → List Nat) :
    List Nat → List Nat → List Nat → ClusterState →
    List Nat × List Nat × ClusterState
  | [], moveSet, remain, s => (moveSet, remain, s)
  | op :: rest, moveSet, remain, s =>
    if remain.contains op then moveScan dep opc casc rest moveSet remain s
    else if dep op remain then
      match opc op with
      | none => moveScan dep opc casc rest moveSet (remain ++ [op]) s
      | some ci =>
        let p := getRootD s ci
        let clOps := casc ((ClusterState.getRec p.2 p.1).operations)
        moveScan dep opc casc rest (removeAll moveSet clOps) (cascadeInsert remain clOps) p.2
    else
      moveScan dep opc casc rest
        (if moveSet.contains op then moveSet else moveSet ++ [op]) remain s

/-- `ActiveDeviceCluster::computeMoveUpSet` (source lines 232-258): forward
walk; an op conflicts when it has a def in the target cluster or in the
current residual; the cascade preserves cluster order. Returns
(move set, residual, state). -/
def computeMoveUpSet (env : Env) (opc : Nat → Option Nat) (target : List Nat)
    (src : List Nat) (s : ClusterState) : List Nat × List Nat × ClusterState :=
  moveScan (fun op remain => anyDefIn env op target || anyDefIn env op remain)
    opc id src [] [] s

/-- `ActiveDeviceCluster::computeMoveDownSet` (source lines 263-291):
reverse walk; an op conflicts when its result is used in the target
cluster or in the current residual; the cascade is in reverse cluster
order; the final residual is restored to forward block order. -/
def computeMoveDownSet (env : Env) (opc : Nat → Option Nat) (target : List Nat)
    (src : List Nat) (s : ClusterState) : List Nat × List Nat × ClusterState :=
  let r := moveScan (fun op remain => anyUseIn env op target || anyUseIn env op remain)
    opc List.reverse src.reverse [] [] s
  (r.1, r.2.1.reverse, r.2.2)

/-- First op of a cluster (`operations.front()`); clusters handled by the
algorithm are nonempty, the default covers only out-of-range indices. -/
def clFront (c : ClusterRec) : Nat := c.operations.headD 0

/-- Last op of a cluster (`operations.back()`). -/
def clBack (c : ClusterRec) : Nat := c.operations.getLastD 0

/-- Position of op `x` in the block (for `isBeforeInBlock`). -/
def idxIn (blk : List Nat) (x : Nat) : Nat := (blk.findIdx? (fun y => y == x)).getD blk.length

/-- `ActiveDeviceCluster::isBeforeInBlock` (source lines 176-181): the last
op of `c` precedes the first op of `d`. -/
def isBeforeInBlock (blk : List Nat) (c d : ClusterRec) : Bool :=
  idxIn blk (clBack c) < idxIn blk (clFront d)

/-- The ops strictly between `a` and `b` in the block: the iterator range
`std::next(a->getIterator()) .. b->getIterator()` of source lines 299-302. -/
def betweenOps (blk : List Nat) (a b : Nat) : List Nat :=
  ((blk.dropWhile (fun x => !(x == a))).drop 1).takeWhile (fun x => !(x == b))

/-- `Operation::moveBefore`: reposition `x` immediately before `tgt`. -/
def moveBeforeIn (blk : List Nat) (x tgt : Nat) : List Nat :=
  let b := blk.erase x
  let i := idxIn b tgt
  b.take i ++ [x] ++ b.drop i

/-- `Operation::moveAfter`: reposition `x` immediately after `tgt`. -/
def moveAfterIn (blk : List Nat) (x tgt : Nat) : List Nat :=
  let b := blk.erase x
  let i := idxIn b tgt
  b.take (i+1) ++ [x] ++ b.drop (i+1)

/-- The move-set computation of `tryMergeInto` for the oriented pair
`(f, t)` (source lines 298-306 when `f` precedes `t`, lines 322-332
otherwise): the gap is drained into a move-up set, a move-down set and a
residual; compression updates are threaded. Returns
(moveUp, moveDown, residual, state). -/
def mergeComputation (env : Env) (opc : Nat → Option Nat) (f t : Nat)
    (s : ClusterState) (blk : List Nat) :
    List Nat × List Nat × List Nat × ClusterState :=
  let fc := s.getRec f
  let tc := s.getRec t
  if isBeforeInBlock blk fc tc then
    let toMove := betweenOps blk (clBack fc) (clFront tc)
    let u := computeMoveUpSet env opc fc.operations toMove s
    let d := computeMoveDownSet env opc tc.operations u.2.1 u.2.2
    (u.1, d.1, d.2.1, d.2.2)
  else
    let toMove := betweenOps blk (clBack tc) (clFront fc)
    let d := computeMoveDownSet env opc fc.operations toMove s
    let u := computeMoveUpSet env opc tc.operations d.2.1 d.2.2
    (u.1, d.1, u.2.1, u.2.2)

/-- `ActiveDeviceCluster::tryMergeInto` (source lines 294-351). On an empty
residual: move the move-up ops just above the upper cluster (in order) and
the move-down ops just below the lower cluster (each `moveAfter` reverses
the post-order list back to block order), splice the op lists — `f`'s ops
before `t`'s when `f` is the upper cluster, after otherwise — empty `f`'s
list (`takeVector`/move), and set `f.mergedInto = t`. On a nonempty
residual: fail, leaving block and lists untouched. -/
def tryMergeInto (env : Env) (opc : Nat → Option Nat) (f t : Nat)
    (s : ClusterState) (blk : List Nat) : Bool × ClusterState × List Nat :=
  let fc := s.getRec f
  let tc := s.getRec t
  let c := mergeComputation env opc f t s blk
  let moveUp := c.1
  let moveDown := c.2.1
  let residual := c.2.2.1
  let s2 := c.2.2.2
  if !residual.isEmpty then (false, s2, blk)
  else if isBeforeInBlock blk fc tc then
    let blk1 := moveUp.foldl (fun b o => moveBeforeIn b o (clFront fc)) blk
    let blk2 := moveDown.foldl (fun b o => moveAfterIn b o (clBack tc)) blk1
    let s3 := (s2.setOps t (fc.operations ++ tc.operations)).setOps f []
    (true, s3.setMerged f (some t), blk2)
  else
    let blk1 := moveUp.foldl (fun b o => moveBeforeIn b o (clFront tc)) blk
    let blk2 := moveDown.foldl (fun b o => moveAfterIn b o (clBack fc)) blk1
    let s3 := (s2.setOps t (tc.operations ++ fc.operations)).setOps f []
    (true, s3.setMerged f (some t), blk2)

/-- `ActiveDeviceCluster::tryMerge` (source lines 353-371): null, equal or
non-root arguments fail immediately; otherwise merge `lhs` into `rhs`,
falling back to `rhs` into `lhs`; the survivor is returned. -/
def tryMerge (env : Env) (opc : Nat → Option Nat) (lhs rhs : Option Nat)
    (s : ClusterState) (blk : List Nat) :
    Option Nat × ClusterState × List Nat :=
  match lhs, rhs with
  | some l, some r =>
    if l = r then (none, s, blk)
    else if (parentOf s l).isSome || (parentOf s r).isSome then (none, s, blk)
    else
      let a := tryMergeInto env opc l r s blk
      if a.1 then (some r, a.2.1, a.2.2)
      else
        let b := tryMergeInto env opc r l a.2.1 a.2.2
        if b.1 then (some l, b.2.1, b.2.2) else (none, b.2.1, b.2.2)
  | _, _ => (none, s, blk)

/-- One driver step (as in `mergeDeviceClustersProgressively`, source lines
515-554): resolve both ops through `getCluster` and attempt the merge. -/
def mergeStep (env : Env) (opc : Nat → Option Nat)
    (st : ClusterState × List Nat) (cmd : Nat × Nat) : ClusterState × List Nat :=
  let a := getCluster opc st.1 cmd.1
  let b := getCluster opc a.2 cmd.2
  let m := tryMerge env opc a.1 b.1 b.2 st.2
  (m.2.1, m.2.2)

/-- Any sequence of driver merge attempts. -/
def applyMerges (env : Env) (opc : Nat → Option Nat) (cmds : List (Nat × Nat))
    (init : ClusterState × List Nat) : ClusterState × List Nat :=
  cmds.foldl (mergeStep env opc) init

/-- The constructor's `op2cluster` population over the clusterable ops
`dom` (source line 418): one singleton root cluster per op. -/
def initClusterState (dom : List Nat) : ClusterState :=
  ⟨dom.map (fun op => ⟨[op], none⟩)⟩

/-- The key → index view of the populated `op2cluster` map. -/
def opcOf (dom : List Nat) (op : Nat) : Option Nat := dom.findIdx? (fun x => x == op)

def arenaLen (s : ClusterState) : Nat := s.arena.length

/-- Acyclicity of the `mergedInto` forest: some rank strictly increases
along links, and links stay inside the arena. Every state the algorithm
builds satisfies this. -/
def Acyclic (s : ClusterState) : Prop :=
  (∃ ρ : Nat → Nat, ∀ i j, parentOf s i = some j → ρ i < ρ j) ∧
  (∀ i j, parentOf s i = some j → j < arenaLen s)

/-- Relation between a state and the same state after some path
compressions: lengths, op lists, rootness, root records and the whole root
resolution are unchanged; links may only be redirected to the (old) root. -/
def Compressed (s s' : ClusterState) : Prop :=
  arenaLen s' = arenaLen s ∧
  (∀ k, (s'.getRec k).operations = (s.getRec k).operations) ∧
  (∀ k, parentOf s' k = none ↔ parentOf s k = none) ∧
  (∀ k j, parentOf s' k = some j → parentOf s k = some j ∨ rootOf s k = some j) ∧
  (∀ k, rootOf s' k = rootOf s k) ∧
  (∀ k, parentOf s k = none → s'.getRec k = s.getRec k)

/-- The union-find/op-list invariant of the clusterer: every tracked op's
map entry resolves to a unique root whose list holds it, op lists of
non-roots are drained, and every listed op resolves back to its list's
root. -/
structure UFInv (dom : List Nat) (opc : Nat → Option Nat) (s : ClusterState) : Prop where
  acyc : Acyclic s
  opcRange : ∀ op, op ∈ dom → ∃ ci, opc op = some ci ∧ ci < arenaLen s
  opcDom : ∀ op ci, opc op = some ci → op ∈ dom
  memRoot : ∀ op ci r, opc op = some ci → rootOf s ci = some r →
    op ∈ (s.getRec r).operations
  opsOwn : ∀ r op, op ∈ (s.getRec r).operations →
    ∃ ci, opc op = some ci ∧ rootOf s ci = some r
  nonRootEmpty : ∀ i, parentOf s i ≠ none → (s.getRec i).operations = []

/-- Coherence of the op → cluster map with the cluster lists: each mapped
op resolves to a root holding it, and every op listed under that root
resolves back to it. This is the fragment of `UFInv` that the move-set
computations rely on. -/
def ClusterCoherent (opc : Nat → Option Nat) (s : ClusterState) : Prop :=
  ∀ o ci, opc o = some ci → ∃ r, rootOf s ci = some r ∧
    o ∈ (s.getRec r).operations ∧
    ∀ m, m ∈ (s.getRec r).operations → ∃ cm, opc m = some cm ∧ rootOf s cm = some r

/-- Whole-cluster atomicity inside a residual/move-set pair: every cluster
mate of a rejected op is itself in the residual and outside the move set. -/
def CascClosed (opc : Nat → Option Nat) (s : ClusterState) (ms rm : List Nat) : Prop :=
  ∀ o, o ∈ rm → ∀ ci, opc o = some ci → ∀ r, rootOf s ci = some r →
    ∀ m, m ∈ (s.getRec r).operations → m ∈ rm ∧ m ∉ ms

/-- Postconditions of one `moveScan` run entered with move set `ms`,
residual `rm` and work list `vec`, all relative to the entry state `s₀`. -/
def MoveScanPost (opc : Nat → Option Nat) (s₀ : ClusterState)
    (ms rm vec : List Nat) (out : List Nat × List Nat × ClusterState) : Prop :=
  Compressed s₀ out.2.2 ∧
  (∀ o, o ∈ rm → o ∈ out.2.1) ∧
  (∀ o, o ∈ ms → o ∈ out.1 ∨ o ∈ out.2.1) ∧
  (∀ o, o ∈ vec → o ∈ out.1 ∨ o ∈ out.2.1) ∧
  (∀ o, o ∈ out.1 → o ∈ ms ∨ o ∈ vec) ∧
  (∀ o, o ∈ out.2.1 → o ∈ rm ∨ o ∈ vec ∨
    ∃ p ci r, p ∈ vec ∧ opc p = some ci ∧ rootOf s₀ ci = some r ∧
      o ∈ (s₀.getRec r).operations) ∧
  (∀ o, o ∈ out.1 → o ∉ out.2.1) ∧
  CascClosed opc s₀ out.1 out.2.1 ∧
  out.2.1.Nodup

/-- The gap of ops strictly between the two clusters in block order, as
read by `tryMergeInto` at entry. -/
def mergeGapOf (s : ClusterState) (blk : List Nat) (f t : Nat) : List Nat :=
  if isBeforeInBlock blk (s.getRec f) (s.getRec t) then
    betweenOps blk (clBack (s.getRec f)) (clFront (s.getRec t))
  else
    betweenOps blk (clBack (s.getRec t)) (clFront (s.getRec f))

/-- Executable check that every cluster intersecting `vec` lies entirely
inside `vec` (the property the `assert`s of the move-set computations
state for the gap between two block-contiguous clusters). -/
def gapClosedB (opc : Nat → Option Nat) (s : ClusterState) (vec : List Nat) : Bool :=
  vec.all fun o =>
    match opc o with
    | none => true
    | some ci =>
      match rootOf s ci with
      | none => false
      | some r => (s.getRec r).operations.all (fun m => vec.contains m)

/-- The three-op environment `a ← x ← b` used by the concrete merge
examples: op 1 consumes op 0 and is consumed by op 2, so clusters `{0}`
and `{2}` cannot absorb the gap op 1 in either direction. -/
def exEnvChain : Env :=
  [⟨[], none, [], false⟩, ⟨[some 0], none, [], false⟩, ⟨[some 1], none, [], false⟩]

/-- Two-op environment: op 0 is a plain producer, op 1 bears the "host"
attribute and consumes op 0's result. -/
def exEnvHostPair : Env :=
  [⟨[], none, [], false⟩, ⟨[some 0], some "host", [], false⟩]

/-- Three-op environment: op 0 feeds the host op 1; op 2 is independent. -/
def exEnvHostTriple : Env :=
  [⟨[], none, [], false⟩, ⟨[some 0], some "host", [], false⟩, ⟨[], none, [], false⟩]

/-- Ascending list of the positions of value `v` in the terminator. -/
def posIdx (ret : List Nat) (v : Nat) : List Nat :=
  (List.range ret.length).filter (fun i => ret[i]? == some v)

/-- Sequential substitution of each pair's original value by its new value
in all non-terminator operand lists. -/
def substOps (pairs : List (Nat × Nat)) (ops : List (List Nat)) : List (List Nat) :=
  pairs.foldl (fun acc p => replaceUsesInOps acc p.1 p.2) ops

/-- Sequential `replaceAllUsesWith` image of the terminator operand list. -/
def substRet (pairs : List (Nat × Nat)) (ret : List Nat) : List Nat :=
  pairs.foldl (fun acc p => acc.map (fun x => if x = p.1 then p.2 else x)) ret

theorem getRec_of_ge {s : ClusterState} {i : Nat} (h : arenaLen s ≤ i) :
    s.getRec i = ⟨[], none⟩ := by
  unfold ClusterState.getRec
  rw [List.getElem?_eq_none h]
  rfl

theorem parentOf_lt {s : ClusterState} {i j : Nat} (h : parentOf s i = some j) :
    i < arenaLen s := by
  by_contra hge
  rw [parentOf, getRec_of_ge (Nat.le_of_not_lt hge)] at h
  exact Option.noConfusion h

theorem getRec_set_self {s : ClusterState} {i : Nat} (hi : i < arenaLen s)
    (c : ClusterRec) : ClusterState.getRec ⟨s.arena.set i c⟩ i = c := by
  unfold ClusterState.getRec
  rw [List.getElem?_set_self (by simpa [arenaLen] using hi)]
  rfl

theorem getRec_set_ne {s : ClusterState} {i k : Nat} (hik : k ≠ i)
    (c : ClusterRec) : ClusterState.getRec ⟨s.arena.set i c⟩ k = s.getRec k := by
  unfold ClusterState.getRec
  rw [List.getElem?_set_ne (fun h => hik h.symm)]

theorem arenaLen_set {s : ClusterState} {i : Nat} (c : ClusterRec) :
    arenaLen ⟨s.arena.set i c⟩ = arenaLen s := by
  simp [arenaLen]

theorem parentOf_setMerged_self {s : ClusterState} {i : Nat}
    (hi : i < arenaLen s) (p : Option Nat) :
    parentOf (s.setMerged i p) i = p := by
  unfold parentOf ClusterState.setMerged
  rw [getRec_set_self hi]

theorem parentOf_setMerged_ne {s : ClusterState} {i k : Nat} (hik : k ≠ i)
    (p : Option Nat) : parentOf (s.setMerged i p) k = parentOf s k := by
  unfold parentOf ClusterState.setMerged
  rw [getRec_set_ne hik]

theorem ops_setMerged {s : ClusterState} {i : Nat} (p : Option Nat) (k : Nat) :
    ((s.setMerged i p).getRec k).operations = (s.getRec k).operations := by
  by_cases hik : k = i
  · subst hik
    by_cases hi : k < arenaLen s
    · unfold ClusterState.setMerged
      rw [getRec_set_self hi]
    · unfold ClusterState.setMerged
      rw [List.set_eq_of_length_le (by simpa [arenaLen] using Nat.le_of_not_lt hi)]
  · unfold ClusterState.setMerged
    rw [getRec_set_ne hik]

theorem arenaLen_setMerged {s : ClusterState} {i : Nat} (p : Option Nat) :
    arenaLen (s.setMerged i p) = arenaLen s := arenaLen_set _

theorem rootOfAux_succ_of_some :
    ∀ {n : Nat} {s : ClusterState} {i r : Nat},
      rootOfAux n s i = some r → rootOfAux (n+1) s i = some r := by
  intro n
  induction n with
  | zero => intro s i r h; exact absurd h (by simp [rootOfAux])
  | succ m ih =>
    intro s i r h
    rw [rootOfAux] at h
    rw [rootOfAux]
    cases hp : parentOf s i with
    | none => rw [hp] at h; exact h
    | some j => rw [hp] at h; exact ih h

theorem rootOfAux_mono {n m : Nat} {s : ClusterState} {i r : Nat} (hnm : n ≤ m)
    (h : rootOfAux n s i = some r) : rootOfAux m s i = some r := by
  induction hnm with
  | refl => exact h
  | step _ ih => exact rootOfAux_succ_of_some ih

theorem rootOfAux_agree :
    ∀ {n : Nat} {m : Nat} {s : ClusterState} {i r r' : Nat},
      rootOfAux n s i = some r → rootOfAux m s i = some r' → r = r' := by
  intro n
  induction n with
  | zero => intro m s i r r' h; exact absurd h (by simp [rootOfAux])
  | succ k ih =>
    intro m s i r r' h h'
    cases m with
    | zero => exact absurd h' (by simp [rootOfAux])
    | succ m' =>
      rw [rootOfAux] at h h'
      cases hp : parentOf s i with
      | none => rw [hp] at h h'; cases h; cases h'; rfl
      | some j => rw [hp] at h h'; exact ih h h'

theorem rootOfAux_isRoot :
    ∀ {n : Nat} {s : ClusterState} {i r : Nat},
      rootOfAux n s i = some r → parentOf s r = none := by
  intro n
  induction n with
  | zero => intro s i r h; exact absurd h (by simp [rootOfAux])
  | succ k ih =>
    intro s i r h
    rw [rootOfAux] at h
    cases hp : parentOf s i with
    | none => rw [hp] at h; cases h; exact hp
    | some j => rw [hp] at h; exact ih h

theorem rootOfAux_rank {ρ : Nat → Nat} {s : ClusterState}
    (hρ : ∀ i j, parentOf s i = some j → ρ i < ρ j) :
    ∀ {n : Nat} {i r : Nat}, rootOfAux n s i = some r → r = i ∨ ρ i < ρ r := by
  intro n
  induction n with
  | zero => intro i r h; exact absurd h (by simp [rootOfAux])
  | succ k ih =>
    intro i r h
    rw [rootOfAux] at h
    cases hp : parentOf s i with
    | none => rw [hp] at h; cases h; exact Or.inl rfl
    | some j =>
      rw [hp] at h
      rcases ih h with hji | hlt
      · exact Or.inr (hji ▸ hρ _ _ hp)
      · exact Or.inr (lt_trans (hρ _ _ hp) hlt)

theorem rootOfAux_lt {s : ClusterState}
    (hlt : ∀ i j, parentOf s i = some j → j < arenaLen s) :
    ∀ {n : Nat} {i r : Nat}, rootOfAux n s i = some r → r = i ∨ r < arenaLen s := by
  intro n
  induction n with
  | zero => intro i r h; exact absurd h (by simp [rootOfAux])
  | succ k ih =>
    intro i r h
    rw [rootOfAux] at h
    cases hp : parentOf s i with
    | none => rw [hp] at h; cases h; exact Or.inl rfl
    | some j =>
      rw [hp] at h
      rcases ih h with hji | hr
      · exact Or.inr (hji ▸ hlt _ _ hp)
      · exact Or.inr hr

theorem rootOfAux_total_aux {s : ClusterState} {ρ : Nat → Nat}
    (hρ : ∀ i j, parentOf s i = some j → ρ i < ρ j)
    (_hlt : ∀ i j, parentOf s i = some j → j < arenaLen s) :
    ∀ (fuel i : Nat),
      ((Finset.range (arenaLen s)).filter (fun j => ρ i ≤ ρ j)).card < fuel →
      ∃ r, rootOfAux fuel s i = some r := by
  intro fuel
  induction fuel with
  | zero => intro i h; omega
  | succ n ih =>
    intro i hcard
    cases hp : parentOf s i with
    | none => exact ⟨i, by rw [rootOfAux, hp]⟩
    | some j =>
      have hij : ρ i < ρ j := hρ _ _ hp
      have hilen : i < arenaLen s := parentOf_lt hp
      have hsub : ((Finset.range (arenaLen s)).filter (fun k => ρ j ≤ ρ k)) ⊂
          ((Finset.range (arenaLen s)).filter (fun k => ρ i ≤ ρ k)) := by
        refine Finset.ssubset_iff_of_subset ?_ |>.2 ⟨i, ?_, ?_⟩
        · intro k hk
          simp only [Finset.mem_filter, Finset.mem_range] at hk ⊢
          exact ⟨hk.1, le_trans (le_of_lt hij) hk.2⟩
        · simp only [Finset.mem_filter, Finset.mem_range]
          exact ⟨hilen, le_refl _⟩
        · simp only [Finset.mem_filter, Finset.mem_range, not_and]
          intro _
          omega
      have hc2 : ((Finset.range (arenaLen s)).filter (fun k => ρ j ≤ ρ k)).card < n :=
        lt_of_lt_of_le (Finset.card_lt_card hsub) (Nat.lt_succ_iff.1 hcard)
      obtain ⟨r, hr⟩ := ih j hc2
      exact ⟨r, by rw [rootOfAux, hp]; exact hr⟩

theorem rootOf_total {s : ClusterState} (hA : Acyclic s) (i : Nat) :
    ∃ r, rootOf s i = some r := by
  obtain ⟨⟨ρ, hρ⟩, hlt⟩ := hA
  refine rootOfAux_total_aux hρ hlt _ i ?_
  calc ((Finset.range (arenaLen s)).filter (fun j => ρ i ≤ ρ j)).card
      ≤ (Finset.range (arenaLen s)).card := Finset.card_filter_le _ _
    _ = arenaLen s := Finset.card_range _
    _ < s.arena.length + 1 := Nat.lt_succ_self _

theorem rootOf_of_root {s : ClusterState} {i : Nat} (h : parentOf s i = none) :
    rootOf s i = some i := by
  rw [rootOf, rootOfAux, h]

theorem rootOf_isRoot {s : ClusterState} {i r : Nat} (h : rootOf s i = some r) :
    parentOf s r = none := rootOfAux_isRoot h

theorem rootOf_parent {s : ClusterState} (hA : Acyclic s) {i j : Nat}
    (hp : parentOf s i = some j) : rootOf s i = rootOf s j := by
  obtain ⟨⟨ρ, hρ⟩, hlt⟩ := hA
  have hilen : i < arenaLen s := parentOf_lt hp
  have hfj : ∃ r, rootOfAux s.arena.length s j = some r := by
    refine rootOfAux_total_aux hρ hlt _ j ?_
    have hsub : ((Finset.range (arenaLen s)).filter (fun k => ρ j ≤ ρ k)) ⊆
        (Finset.range (arenaLen s)).erase i := by
      intro k hk
      simp only [Finset.mem_filter, Finset.mem_range] at hk
      refine Finset.mem_erase.2 ⟨?_, Finset.mem_range.2 hk.1⟩
      intro hki
      subst hki
      exact absurd (hρ _ _ hp) (by omega)
    calc ((Finset.range (arenaLen s)).filter (fun k => ρ j ≤ ρ k)).card
        ≤ ((Finset.range (arenaLen s)).erase i).card := Finset.card_le_card hsub
      _ = arenaLen s - 1 := by rw [Finset.card_erase_of_mem (Finset.mem_range.2 hilen), Finset.card_range]
      _ < s.arena.length := by unfold arenaLen at hilen ⊢; omega
  obtain ⟨r, hr⟩ := hfj
  have h1 : rootOf s i = some r := by
    rw [rootOf, rootOfAux, hp]; exact hr
  have h2 : rootOf s j = some r := rootOfAux_mono (Nat.le_succ _) hr
  rw [h1, h2]

theorem rootOf_lt {s : ClusterState} (hA : Acyclic s) {i r : Nat}
    (h : rootOf s i = some r) : r = i ∨ r < arenaLen s :=
  rootOfAux_lt hA.2 h

theorem rootOf_rank_strict {s : ClusterState} {ρ : Nat → Nat}
    (hρ : ∀ i j, parentOf s i = some j → ρ i < ρ j) {i j r : Nat}
    (hp : parentOf s i = some j) (h : rootOf s i = some r) : ρ i < ρ r := by
  rcases rootOfAux_rank hρ h with hri | hlt
  · subst hri
    exact absurd hp (by rw [rootOfAux_isRoot h]; simp)
  · exact hlt

theorem rootOf_lt_of_nonroot {s : ClusterState} (hA : Acyclic s) {i j r : Nat}
    (hp : parentOf s i = some j) (h : rootOf s i = some r) : r < arenaLen s := by
  rcases rootOf_lt hA h with hri | hlt
  · subst hri
    exact absurd hp (by rw [rootOf_isRoot h]; simp)
  · exact hlt

theorem compressed_refl (s : ClusterState) : Compressed s s :=
  ⟨rfl, fun _ => rfl, fun _ => Iff.rfl, fun _ _ h => Or.inl h, fun _ => rfl, fun _ _ => rfl⟩

theorem compressed_trans {s s' s'' : ClusterState} (h1 : Compressed s s')
    (h2 : Compressed s' s'') : Compressed s s'' := by
  obtain ⟨hl1, ho1, hr1, he1, hv1, hrec1⟩ := h1
  obtain ⟨hl2, ho2, hr2, he2, hv2, hrec2⟩ := h2
  refine ⟨hl2.trans hl1, fun k => (ho2 k).trans (ho1 k),
    fun k => (hr2 k).trans (hr1 k), ?_, fun k => (hv2 k).trans (hv1 k), ?_⟩
  · intro k j h
    rcases he2 k j h with h' | h'
    · exact he1 k j h'
    · exact Or.inr ((hv1 k).symm.trans h')
  · intro k hk
    exact (hrec2 k ((hr1 k).2 hk)).trans (hrec1 k hk)

theorem compressed_acyclic {s s' : ClusterState} (hA : Acyclic s)
    (h : Compressed s s') : Acyclic s' := by
  obtain ⟨hl, _, hr, he, _, _⟩ := h
  obtain ⟨⟨ρ, hρ⟩, hlt⟩ := hA
  refine ⟨⟨ρ, ?_⟩, ?_⟩
  · intro i j hij
    rcases he i j hij with h' | h'
    · exact hρ _ _ h'
    · have hnr : parentOf s i ≠ none := by
        intro hno
        rw [(hr i).2 hno] at hij
        exact Option.noConfusion hij
      cases hp : parentOf s i with
      | none => exact absurd hp hnr
      | some j0 => exact rootOf_rank_strict hρ hp h'
  · intro i j hij
    rw [hl]
    rcases he i j hij with h' | h'
    · exact hlt _ _ h'
    · have hnr : parentOf s i ≠ none := by
        intro hno
        rw [(hr i).2 hno] at hij
        exact Option.noConfusion hij
      cases hp : parentOf s i with
      | none => exact absurd hp hnr
      | some j0 => exact rootOf_lt_of_nonroot ⟨⟨ρ, hρ⟩, hlt⟩ hp h'

theorem acyclic_setMerged_root {s : ClusterState} {i j0 r : Nat} (hA : Acyclic s)
    (hi : parentOf s i = some j0) (hr : rootOf s i = some r) :
    Acyclic (s.setMerged i (some r)) := by
  obtain ⟨⟨ρ, hρ⟩, hlt⟩ := hA
  have hilen : i < arenaLen s := parentOf_lt hi
  refine ⟨⟨ρ, ?_⟩, ?_⟩
  · intro k j h
    by_cases hk : k = i
    · subst hk
      rw [parentOf_setMerged_self hilen] at h
      cases h
      exact rootOf_rank_strict hρ hi hr
    · rw [parentOf_setMerged_ne hk] at h
      exact hρ _ _ h
  · intro k j h
    rw [arenaLen_setMerged]
    by_cases hk : k = i
    · subst hk
      rw [parentOf_setMerged_self hilen] at h
      cases h
      exact rootOf_lt_of_nonroot ⟨⟨ρ, hρ⟩, hlt⟩ hi hr
    · rw [parentOf_setMerged_ne hk] at h
      exact hlt _ _ h

theorem rootOf_repoint {s : ClusterState} {i j0 r : Nat} (hA : Acyclic s)
    (hi : parentOf s i = some j0) (hr : rootOf s i = some r) :
    ∀ k, rootOf (s.setMerged i (some r)) k = rootOf s k := by
  have hilen : i < arenaLen s := parentOf_lt hi
  have hA1 : Acyclic (s.setMerged i (some r)) := acyclic_setMerged_root hA hi hr
  have hrroot : parentOf s r = none := rootOf_isRoot hr
  have hri : r ≠ i := by
    intro h
    subst h
    rw [hrroot] at hi
    exact Option.noConfusion hi
  have key : ∀ (fuel : Nat) (k r' : Nat), rootOfAux fuel s k = some r' →
      rootOf (s.setMerged i (some r)) k = some r' := by
    intro fuel
    induction fuel with
    | zero => intro k r' h; exact absurd h (by simp [rootOfAux])
    | succ n ih =>
      intro k r' h
      rw [rootOfAux] at h
      cases hp : parentOf s k with
      | none =>
        rw [hp] at h
        cases h
        have hki : k ≠ i := by
          intro hk
          subst hk
          rw [hp] at hi
          exact Option.noConfusion hi
        have : parentOf (s.setMerged i (some r)) k = none := by
          rw [parentOf_setMerged_ne hki]; exact hp
        exact rootOf_of_root this
      | some j =>
        rw [hp] at h
        by_cases hk : k = i
        · subst hk
          have hr' : r' = r := by
            have h1 : rootOfAux (n+1) s k = some r' := by rw [rootOfAux, hp]; exact h
            exact rootOfAux_agree h1 hr
          subst hr'
          have hp1 : parentOf (s.setMerged k (some r')) k = some r' :=
            parentOf_setMerged_self hilen _
          rw [rootOf_parent hA1 hp1]
          refine rootOf_of_root ?_
          rw [parentOf_setMerged_ne hri]
          exact hrroot
        · have hp1 : parentOf (s.setMerged i (some r)) k = some j := by
            rw [parentOf_setMerged_ne hk]; exact hp
          rw [rootOf_parent hA1 hp1]
          exact ih j r' h
  intro k
  obtain ⟨rk, hrk⟩ := rootOf_total hA k
  rw [hrk, key _ k rk hrk]

theorem compressed_setMerged_root {s : ClusterState} {i j0 r : Nat} (hA : Acyclic s)
    (hi : parentOf s i = some j0) (hr : rootOf s i = some r) :
    Compressed s (s.setMerged i (some r)) := by
  have hilen : i < arenaLen s := parentOf_lt hi
  refine ⟨arenaLen_setMerged _, fun k => ops_setMerged _ k, ?_, ?_, rootOf_repoint hA hi hr, ?_⟩
  · intro k
    by_cases hk : k = i
    · subst hk
      rw [parentOf_setMerged_self hilen, hi]
      simp
    · rw [parentOf_setMerged_ne hk]
  · intro k j h
    by_cases hk : k = i
    · subst hk
      rw [parentOf_setMerged_self hilen] at h
      cases h
      exact Or.inr hr
    · rw [parentOf_setMerged_ne hk] at h
      exact Or.inl h
  · intro k hk
    have hki : k ≠ i := by
      intro h
      subst h
      rw [hk] at hi
      exact Option.noConfusion hi
    exact getRec_set_ne hki _

theorem getRootAux_spec {s : ClusterState} (hA : Acyclic s) :
    ∀ {fuel : Nat} {i r : Nat} {s' : ClusterState},
      getRootAux fuel s i = some (r, s') →
      rootOfAux fuel s i = some r ∧ Compressed s s' := by
  intro fuel
  induction fuel with
  | zero => intro i r s' h; exact absurd h (by simp [getRootAux])
  | succ n ih =>
    intro i r s' h
    rw [getRootAux] at h
    cases hp : parentOf s i with
    | none =>
      rw [hp] at h
      cases h
      exact ⟨by rw [rootOfAux, hp], compressed_refl s⟩
    | some j =>
      rw [hp] at h
      dsimp only at h
      cases hg : getRootAux n s j with
      | none => rw [hg] at h; exact Option.noConfusion h
      | some p =>
        rw [hg] at h
        dsimp only at h
        cases h
        obtain ⟨hroot, hcomp⟩ := ih hg
        have hrfull : rootOfAux (n+1) s i = some p.1 := by
          rw [rootOfAux, hp]; exact hroot
        refine ⟨hrfull, ?_⟩
        have hA0 : Acyclic p.2 := compressed_acyclic hA hcomp
        have hpi0 : parentOf p.2 i ≠ none := by
          intro hno
          rw [(hcomp.2.2.1 i).1 hno] at hp
          exact Option.noConfusion hp
        cases hpi : parentOf p.2 i with
        | none => exact absurd hpi hpi0
        | some j0 =>
          have hri : rootOf s i = some p.1 := by
            obtain ⟨rr, hrr⟩ := rootOf_total hA i
            have hrr' : rootOfAux (s.arena.length + 1) s i = some rr := hrr
            have : rr = p.1 := rootOfAux_agree hrr' hrfull
            rw [hrr, this]
          have hri0 : rootOf p.2 i = some p.1 := (hcomp.2.2.2.2.1 i).trans hri
          exact compressed_trans hcomp (compressed_setMerged_root hA0 hpi hri0)

theorem getRootAux_isSome :
    ∀ {fuel : Nat} {s : ClusterState} {i r : Nat},
      rootOfAux fuel s i = some r → (getRootAux fuel s i).isSome := by
  intro fuel
  induction fuel with
  | zero => intro s i r h; exact absurd h (by simp [rootOfAux])
  | succ n ih =>
    intro s i r h
    rw [rootOfAux] at h
    rw [getRootAux]
    cases hp : parentOf s i with
    | none => simp [hp]
    | some j =>
      rw [hp] at h
      dsimp only
      cases hg : getRootAux n s j with
      | none => exact absurd (ih h) (by rw [hg]; simp)
      | some p => simp

theorem getRootD_spec {s : ClusterState} (hA : Acyclic s) (i : Nat) :
    rootOf s i = some (getRootD s i).1 ∧ Compressed s (getRootD s i).2 := by
  obtain ⟨r, hr⟩ := rootOf_total hA i
  have hr' : rootOfAux (s.arena.length + 1) s i = some r := hr
  have hsome := getRootAux_isSome hr'
  cases hg : getRootAux (s.arena.length + 1) s i with
  | none => rw [hg] at hsome; exact absurd hsome (by simp)
  | some p =>
    obtain ⟨hroot, hcomp⟩ := getRootAux_spec hA hg
    have hp1 : p.1 = r := rootOfAux_agree hroot hr'
    rw [getRootD, hg]
    exact ⟨by rw [hr, Option.getD_some, hp1], by rw [Option.getD_some]; exact hcomp⟩

theorem ufInv_compressed {dom : List Nat} {opc : Nat → Option Nat}
    {s s' : ClusterState} (h : UFInv dom opc s) (hc : Compressed s s') :
    UFInv dom opc s' := by
  obtain ⟨hl, ho, hr, _, hv, _⟩ := id hc
  refine ⟨compressed_acyclic h.acyc hc, ?_, h.opcDom, ?_, ?_, ?_⟩
  · intro op hop
    obtain ⟨ci, h1, h2⟩ := h.opcRange op hop
    exact ⟨ci, h1, by rw [hl]; exact h2⟩
  · intro op ci r h1 h2
    rw [hv] at h2
    rw [ho]
    exact h.memRoot op ci r h1 h2
  · intro r op hop
    rw [ho] at hop
    obtain ⟨ci, h1, h2⟩ := h.opsOwn r op hop
    exact ⟨ci, h1, by rw [hv]; exact h2⟩
  · intro i hi
    rw [ho]
    refine h.nonRootEmpty i ?_
    intro hno
    exact hi ((hr i).2 hno)

theorem opcOf_spec {dom : List Nat} {op ci : Nat} (h : opcOf dom op = some ci) :
    ci < dom.length ∧ dom.getD ci 0 = op := by
  rw [opcOf, List.findIdx?_eq_some_iff_getElem] at h
  obtain ⟨hlt, hp, _⟩ := h
  refine ⟨hlt, ?_⟩
  rw [List.getD_eq_getElem?_getD, List.getElem?_eq_getElem hlt]
  simpa using hp

theorem opcOf_mem {dom : List Nat} {op ci : Nat} (h : opcOf dom op = some ci) :
    op ∈ dom := by
  obtain ⟨hlt, hget⟩ := opcOf_spec h
  rw [← hget]
  rw [List.getD_eq_getElem?_getD, List.getElem?_eq_getElem hlt]
  exact List.getElem_mem hlt

theorem opcOf_of_mem {dom : List Nat} {op : Nat} (h : op ∈ dom) :
    ∃ ci, opcOf dom op = some ci ∧ ci < dom.length := by
  have : (dom.findIdx? (fun x => x == op)).isSome = true := by
    rw [List.findIdx?_isSome]
    exact List.any_eq_true.2 ⟨op, h, by simp⟩
  cases hf : dom.findIdx? (fun x => x == op) with
  | none => rw [hf] at this; exact absurd this (by simp)
  | some ci => exact ⟨ci, hf, (opcOf_spec hf).1⟩

theorem opcOf_getD_of_nodup {dom : List Nat} (hnd : dom.Nodup) {ci : Nat}
    (hci : ci < dom.length) : opcOf dom (dom.getD ci 0) = some ci := by
  have hg : dom.getD ci 0 = dom[ci] := by
    rw [List.getD_eq_getElem?_getD, List.getElem?_eq_getElem hci]
    rfl
  rw [opcOf, List.findIdx?_eq_some_iff_getElem]
  refine ⟨hci, by simp [List.getElem?_eq_getElem hci], ?_⟩
  intro j hj
  simp only [Bool.not_eq_true, beq_eq_false_iff_ne, ne_eq, hg]
  intro heq
  have : j = ci := (List.Nodup.getElem_inj_iff hnd).1 heq
  omega

theorem initClusterState_len (dom : List Nat) :
    arenaLen (initClusterState dom) = dom.length := by
  simp [initClusterState, arenaLen]

theorem initClusterState_getRec {dom : List Nat} {ci : Nat} (hci : ci < dom.length) :
    (initClusterState dom).getRec ci = ⟨[dom.getD ci 0], none⟩ := by
  unfold initClusterState ClusterState.getRec
  rw [List.getElem?_map, List.getElem?_eq_getElem hci]
  simp [List.getD_eq_getElem?_getD, List.getElem?_eq_getElem hci]

theorem initClusterState_parent (dom : List Nat) (i : Nat) :
    parentOf (initClusterState dom) i = none := by
  by_cases hi : i < dom.length
  · rw [parentOf, initClusterState_getRec hi]
  · rw [parentOf, getRec_of_ge (by rw [initClusterState_len]; omega)]

theorem ufInv_init (dom : List Nat) (hnd : dom.Nodup) :
    UFInv dom (opcOf dom) (initClusterState dom) := by
  have hpar := initClusterState_parent dom
  refine ⟨⟨⟨id, ?_⟩, ?_⟩, ?_, ?_, ?_, ?_, ?_⟩
  · intro i j h; rw [hpar] at h; exact Option.noConfusion h
  · intro i j h; rw [hpar] at h; exact Option.noConfusion h
  · intro op hop
    obtain ⟨ci, h1, h2⟩ := opcOf_of_mem hop
    exact ⟨ci, h1, by rw [initClusterState_len]; exact h2⟩
  · intro op ci h
    exact opcOf_mem h
  · intro op ci r h1 h2
    rw [rootOf_of_root (hpar ci)] at h2
    cases h2
    obtain ⟨hlt, hget⟩ := opcOf_spec h1
    rw [initClusterState_getRec hlt, hget]
    exact List.mem_singleton.2 rfl
  · intro r op hop
    by_cases hr : r < dom.length
    · rw [initClusterState_getRec hr] at hop
      have : op = dom.getD r 0 := List.mem_singleton.1 hop
      subst this
      exact ⟨r, opcOf_getD_of_nodup hnd hr, rootOf_of_root (hpar r)⟩
    · rw [getRec_of_ge (by rw [initClusterState_len]; omega)] at hop
      exact absurd hop (List.not_mem_nil op)
  · intro i hi
    exact absurd (hpar i) hi

theorem parentOf_setOps {s : ClusterState} {i : Nat} (ops : List Nat) (k : Nat) :
    parentOf (s.setOps i ops) k = parentOf s k := by
  by_cases hik : k = i
  · subst hik
    by_cases hi : k < arenaLen s
    · unfold parentOf ClusterState.setOps
      rw [getRec_set_self hi]
    · unfold parentOf ClusterState.setOps
      rw [List.set_eq_of_length_le (by simpa [arenaLen] using Nat.le_of_not_lt hi)]
  · unfold parentOf ClusterState.setOps
    rw [getRec_set_ne hik]

theorem ops_setOps_self {s : ClusterState} {i : Nat} (hi : i < arenaLen s)
    (ops : List Nat) : ((s.setOps i ops).getRec i).operations = ops := by
  unfold ClusterState.setOps
  rw [getRec_set_self hi]

theorem ops_setOps_ne {s : ClusterState} {i k : Nat} (hik : k ≠ i)
    (ops : List Nat) : ((s.setOps i ops).getRec k).operations = (s.getRec k).operations := by
  unfold ClusterState.setOps
  rw [getRec_set_ne hik]

theorem arenaLen_setOps {s : ClusterState} {i : Nat} (ops : List Nat) :
    arenaLen (s.setOps i ops) = arenaLen s := arenaLen_set _

theorem linkMerge_parent {s : ClusterState} {f t : Nat} (newOps : List Nat)
    (hflen : f < arenaLen s) (k : Nat) :
    parentOf (((s.setOps t newOps).setOps f []).setMerged f (some t)) k =
      if k = f then some t else parentOf s k := by
  by_cases hk : k = f
  · subst hk
    rw [if_pos rfl,
      parentOf_setMerged_self (by rw [arenaLen_setOps, arenaLen_setOps]; exact hflen)]
  · rw [if_neg hk, parentOf_setMerged_ne hk, parentOf_setOps, parentOf_setOps]

theorem linkMerge_ops {s : ClusterState} {f t : Nat} (newOps : List Nat)
    (hft : f ≠ t) (hflen : f < arenaLen s) (htlen : t < arenaLen s) (k : Nat) :
    ((((s.setOps t newOps).setOps f []).setMerged f (some t)).getRec k).operations =
      if k = f then [] else if k = t then newOps else (s.getRec k).operations := by
  rw [ops_setMerged]
  by_cases hk : k = f
  · subst hk
    rw [if_pos rfl, ops_setOps_self (by rw [arenaLen_setOps]; exact hflen)]
  · rw [if_neg hk, ops_setOps_ne hk]
    by_cases hkt : k = t
    · subst hkt
      rw [if_pos rfl, ops_setOps_self htlen]
    · rw [if_neg hkt, ops_setOps_ne hkt]

theorem linkMerge_len {s : ClusterState} {f t : Nat} (newOps : List Nat) :
    arenaLen (((s.setOps t newOps).setOps f []).setMerged f (some t)) = arenaLen s := by
  rw [arenaLen_setMerged, arenaLen_setOps, arenaLen_setOps]

theorem acyclic_linkMerge (s : ClusterState) (f t : Nat) (newOps : List Nat)
    (hA : Acyclic s) (hft : f ≠ t) (hf : parentOf s f = none)
    (ht : parentOf s t = none) (hflen : f < arenaLen s) (htlen : t < arenaLen s) :
    Acyclic (((s.setOps t newOps).setOps f []).setMerged f (some t)) := by
  obtain ⟨⟨ρ, hρ⟩, hlt⟩ := id hA
  classical
  refine ⟨⟨fun k => if rootOf s k = some t then ρ k + ((Finset.range (arenaLen s)).sup ρ + 1)
    else ρ k, ?_⟩, ?_⟩
  · intro i j h
    dsimp only
    rw [linkMerge_parent newOps hflen] at h
    by_cases hi : i = f
    · subst hi
      rw [if_pos rfl] at h
      have hj : j = t := (Option.some.inj h).symm
      subst hj
      have h1 : rootOf s i = some i := rootOf_of_root hf
      have h2 : rootOf s j = some j := rootOf_of_root ht
      rw [h1, h2]
      rw [if_neg (fun hc => hft (Option.some.inj hc)), if_pos rfl]
      have h3 : ρ i ≤ (Finset.range (arenaLen s)).sup ρ :=
        Finset.le_sup (Finset.mem_range.2 hflen)
      omega
    · rw [if_neg hi] at h
      have hroots : rootOf s i = rootOf s j := rootOf_parent hA h
      have hij : ρ i < ρ j := hρ _ _ h
      rw [hroots]
      by_cases hrt : rootOf s j = some t
      · simp only [if_pos hrt]; omega
      · simp only [if_neg hrt]; exact hij
  · intro i j h
    rw [linkMerge_parent newOps hflen] at h
    rw [linkMerge_len]
    by_cases hi : i = f
    · subst hi
      rw [if_pos rfl] at h
      have hj : j = t := (Option.some.inj h).symm
      subst hj
      exact htlen
    · rw [if_neg hi] at h
      exact hlt _ _ h

theorem rootOf_linkMerge (s : ClusterState) (f t : Nat) (newOps : List Nat)
    (hA : Acyclic s) (hft : f ≠ t) (hf : parentOf s f = none)
    (ht : parentOf s t = none) (hflen : f < arenaLen s) (htlen : t < arenaLen s) :
    ∀ k, rootOf (((s.setOps t newOps).setOps f []).setMerged f (some t)) k =
      if rootOf s k = some f then some t else rootOf s k := by
  classical
  have hA3 : Acyclic (((s.setOps t newOps).setOps f []).setMerged f (some t)) :=
    acyclic_linkMerge s f t newOps hA hft hf ht hflen htlen
  have hpar : ∀ k, parentOf (((s.setOps t newOps).setOps f []).setMerged f (some t)) k =
      if k = f then some t else parentOf s k :=
    fun k => linkMerge_parent newOps hflen k
  have htroot3 : parentOf (((s.setOps t newOps).setOps f []).setMerged f (some t)) t = none := by
    rw [hpar t, if_neg (fun hc => hft hc.symm)]
    exact ht
  have key : ∀ (fuel k rr : Nat), rootOfAux fuel s k = some rr →
      rootOf (((s.setOps t newOps).setOps f []).setMerged f (some t)) k =
        (if rr = f then some t else some rr) := by
    intro fuel
    induction fuel with
    | zero => intro k rr h; exact absurd h (by simp [rootOfAux])
    | succ n ih =>
      intro k rr h
      rw [rootOfAux] at h
      cases hp : parentOf s k with
      | none =>
        rw [hp] at h
        have hrr : rr = k := (Option.some.inj h).symm
        subst hrr
        by_cases hk : rr = f
        · subst hk
          rw [if_pos rfl]
          have hp3 : parentOf (((s.setOps t newOps).setOps rr []).setMerged rr (some t)) rr = some t := by
            rw [hpar rr, if_pos rfl]
          rw [rootOf_parent hA3 hp3]
          exact rootOf_of_root htroot3
        · rw [if_neg hk]
          refine rootOf_of_root ?_
          rw [hpar rr, if_neg hk]
          exact hp
      | some j =>
        rw [hp] at h
        have hk : k ≠ f := by
          intro hkf
          subst hkf
          rw [hf] at hp
          exact Option.noConfusion hp
        have hp3 : parentOf (((s.setOps t newOps).setOps f []).setMerged f (some t)) k = some j := by
          rw [hpar k, if_neg hk]
          exact hp
        rw [rootOf_parent hA3 hp3]
        exact ih j rr h
  intro k
  obtain ⟨rk, hrk⟩ := rootOf_total hA k
  have hk := key _ k rk hrk
  rw [hrk, hk]
  by_cases hrf : rk = f
  · rw [if_pos hrf, if_pos (by rw [hrf])]
  · rw [if_neg hrf, if_neg (fun hc => hrf (Option.some.inj hc))]

theorem ufInv_linkMerge {dom : List Nat} {opc : Nat → Option Nat} {s : ClusterState}
    (f t : Nat) (newOps : List Nat) (h : UFInv dom opc s) (hft : f ≠ t)
    (hf : parentOf s f = none) (ht : parentOf s t = none)
    (hflen : f < arenaLen s) (htlen : t < arenaLen s)
    (hmem : ∀ x, x ∈ newOps ↔ x ∈ (s.getRec f).operations ∨ x ∈ (s.getRec t).operations) :
    UFInv dom opc (((s.setOps t newOps).setOps f []).setMerged f (some t)) := by
  have hA3 := acyclic_linkMerge s f t newOps h.acyc hft hf ht hflen htlen
  have hroot3 := rootOf_linkMerge s f t newOps h.acyc hft hf ht hflen htlen
  have hops3 := linkMerge_ops newOps hft hflen htlen
  refine ⟨hA3, ?_, h.opcDom, ?_, ?_, ?_⟩
  · intro op hop
    obtain ⟨ci, h1, h2⟩ := h.opcRange op hop
    exact ⟨ci, h1, by rw [linkMerge_len]; exact h2⟩
  · intro op ci r3 h1 h2
    rw [hroot3 ci] at h2
    obtain ⟨r, hr⟩ := rootOf_total h.acyc ci
    rw [hr] at h2
    rw [hops3]
    by_cases hrf : r = f
    · subst hrf
      rw [if_pos rfl] at h2
      have hr3 : r3 = t := (Option.some.inj h2).symm
      subst hr3
      rw [if_neg (fun hc => hft hc.symm), if_pos rfl]
      exact (hmem op).2 (Or.inl (h.memRoot op ci r h1 hr))
    · rw [if_neg (fun hc => hrf (Option.some.inj hc))] at h2
      have hr3 : r3 = r := (Option.some.inj h2).symm
      subst hr3
      rw [if_neg hrf]
      by_cases hrt : r3 = t
      · subst hrt
        rw [if_pos rfl]
        exact (hmem op).2 (Or.inr (h.memRoot op ci _ h1 hr))
      · rw [if_neg hrt]
        exact h.memRoot op ci r3 h1 hr
  · intro r3 op hop
    rw [hops3] at hop
    by_cases hrf : r3 = f
    · rw [if_pos hrf] at hop
      exact absurd hop (List.not_mem_nil op)
    · rw [if_neg hrf] at hop
      by_cases hrt : r3 = t
      · subst hrt
        rw [if_pos rfl] at hop
        rcases (hmem op).1 hop with hmf | hmt
        · obtain ⟨ci, h1, h2⟩ := h.opsOwn f op hmf
          exact ⟨ci, h1, by rw [hroot3 ci, h2, if_pos rfl]⟩
        · obtain ⟨ci, h1, h2⟩ := h.opsOwn r3 op hmt
          refine ⟨ci, h1, ?_⟩
          rw [hroot3 ci, h2, if_neg (fun hc => hft (Option.some.inj hc).symm)]
      · rw [if_neg hrt] at hop
        obtain ⟨ci, h1, h2⟩ := h.opsOwn r3 op hop
        refine ⟨ci, h1, ?_⟩
        rw [hroot3 ci, h2, if_neg (fun hc => hrf (Option.some.inj hc))]
  · intro i hi
    rw [linkMerge_parent newOps hflen] at hi
    rw [hops3]
    by_cases hif : i = f
    · rw [if_pos hif]
    · rw [if_neg hif] at hi
      rw [if_neg hif]
      have hit : i ≠ t := by
        intro hc
        subst hc
        exact hi ht
      rw [if_neg hit]
      exact h.nonRootEmpty i hi

theorem containsIff {l : List Nat} {x : Nat} : l.contains x = true ↔ x ∈ l := by
  simp [List.contains, List.elem_iff]

theorem mem_cascadeInsert {x : Nat} :
    ∀ (l rm : List Nat), x ∈ cascadeInsert rm l ↔ x ∈ rm ∨ x ∈ l := by
  intro l
  induction l with
  | nil => intro rm; simp [cascadeInsert]
  | cons a l' ih =>
    intro rm
    show x ∈ cascadeInsert (if rm.contains a then rm else rm ++ [a]) l' ↔ _
    rw [ih]
    by_cases ha : a ∈ rm
    · rw [if_pos (containsIff.2 ha)]
      constructor
      · rintro (h | h)
        · exact Or.inl h
        · exact Or.inr (List.mem_cons_of_mem a h)
      · rintro (h | h)
        · exact Or.inl h
        · rcases List.mem_cons.1 h with rfl | h
          · exact Or.inl ha
          · exact Or.inr h
    · rw [if_neg (fun hc => ha (containsIff.1 hc))]
      simp only [List.mem_append, List.mem_singleton, List.mem_cons]
      tauto

theorem cascadeInsert_nodup :
    ∀ (l rm : List Nat), rm.Nodup → (cascadeInsert rm l).Nodup := by
  intro l
  induction l with
  | nil => intro rm h; exact h
  | cons a l' ih =>
    intro rm h
    show (cascadeInsert (if rm.contains a then rm else rm ++ [a]) l').Nodup
    by_cases ha : a ∈ rm
    · rw [if_pos (containsIff.2 ha)]
      exact ih rm h
    · rw [if_neg (fun hc => ha (containsIff.1 hc))]
      refine ih _ ?_
      rw [List.nodup_append]
      exact ⟨h, List.nodup_singleton a, by simpa using ha⟩

theorem mem_removeAll {ms l : List Nat} {x : Nat} :
    x ∈ removeAll ms l ↔ x ∈ ms ∧ x ∉ l := by
  unfold removeAll
  rw [List.mem_filter]
  constructor
  · rintro ⟨h1, h2⟩
    refine ⟨h1, fun hc => ?_⟩
    rw [containsIff.2 hc] at h2
    exact Bool.noConfusion h2
  · rintro ⟨h1, h2⟩
    refine ⟨h1, ?_⟩
    cases hc : l.contains x with
    | false => rfl
    | true => exact absurd (containsIff.1 hc) h2

theorem ufInv_coherent {dom : List Nat} {opc : Nat → Option Nat} {s : ClusterState}
    (h : UFInv dom opc s) : ClusterCoherent opc s := by
  intro o ci hci
  obtain ⟨r, hr⟩ := rootOf_total h.acyc ci
  exact ⟨r, hr, h.memRoot o ci r hci hr, fun m hm => h.opsOwn r m hm⟩

theorem moveScanPost_skip {opc : Nat → Option Nat} {s₀ : ClusterState}
    {ms rm rest : List Nat} {op : Nat} {out : List Nat × List Nat × ClusterState}
    (hin : op ∈ rm) (h : MoveScanPost opc s₀ ms rm rest out) :
    MoveScanPost opc s₀ ms rm (op :: rest) out := by
  obtain ⟨h1, h2, h3, h4, h5, h6, h7, h8, h9⟩ := h
  refine ⟨h1, h2, h3, ?_, ?_, ?_, h7, h8, h9⟩
  · intro o ho
    rcases List.mem_cons.1 ho with rfl | ho
    · exact Or.inr (h2 o hin)
    · exact h4 o ho
  · intro o ho
    rcases h5 o ho with h' | h'
    · exact Or.inl h'
    · exact Or.inr (List.mem_cons_of_mem op h')
  · intro o ho
    rcases h6 o ho with h' | h' | ⟨p, ci, r, hp, hrest⟩
    · exact Or.inl h'
    · exact Or.inr (Or.inl (List.mem_cons_of_mem op h'))
    · exact Or.inr (Or.inr ⟨p, ci, r, List.mem_cons_of_mem op hp, hrest⟩)

theorem moveScanPost_remainIns {opc : Nat → Option Nat} {s₀ : ClusterState}
    {ms rm rest : List Nat} {op : Nat} {out : List Nat × List Nat × ClusterState}
    (h : MoveScanPost opc s₀ ms (rm ++ [op]) rest out) :
    MoveScanPost opc s₀ ms rm (op :: rest) out := by
  obtain ⟨h1, h2, h3, h4, h5, h6, h7, h8, h9⟩ := h
  refine ⟨h1, ?_, h3, ?_, ?_, ?_, h7, h8, h9⟩
  · intro o ho
    exact h2 o (List.mem_append_left _ ho)
  · intro o ho
    rcases List.mem_cons.1 ho with rfl | ho
    · exact Or.inr (h2 o (List.mem_append_right _ (List.mem_singleton.2 rfl)))
    · exact h4 o ho
  · intro o ho
    rcases h5 o ho with h' | h'
    · exact Or.inl h'
    · exact Or.inr (List.mem_cons_of_mem op h')
  · intro o ho
    rcases h6 o ho with h' | h' | ⟨p, ci, r, hp, hrest⟩
    · rcases List.mem_append.1 h' with h'' | h''
      · exact Or.inl h''
      · have : o = op := List.mem_singleton.1 h''
        subst this
        exact Or.inr (Or.inl (List.mem_cons_self o rest))
    · exact Or.inr (Or.inl (List.mem_cons_of_mem op h'))
    · exact Or.inr (Or.inr ⟨p, ci, r, List.mem_cons_of_mem op hp, hrest⟩)

theorem moveScanPost_cascade {opc : Nat → Option Nat} {s₀ : ClusterState}
    {ms rm rest clOps : List Nat} {op ci r : Nat}
    {out : List Nat × List Nat × ClusterState}
    (hopc : opc op = some ci) (hroot : rootOf s₀ ci = some r)
    (hcl : ∀ x, x ∈ clOps ↔ x ∈ (s₀.getRec r).operations)
    (hopmem : op ∈ (s₀.getRec r).operations)
    (h : MoveScanPost opc s₀ (removeAll ms clOps) (cascadeInsert rm clOps) rest out) :
    MoveScanPost opc s₀ ms rm (op :: rest) out := by
  obtain ⟨h1, h2, h3, h4, h5, h6, h7, h8, h9⟩ := h
  refine ⟨h1, ?_, ?_, ?_, ?_, ?_, h7, h8, h9⟩
  · intro o ho
    exact h2 o ((mem_cascadeInsert clOps rm).2 (Or.inl ho))
  · intro o ho
    by_cases hocl : o ∈ clOps
    · exact Or.inr (h2 o ((mem_cascadeInsert clOps rm).2 (Or.inr hocl)))
    · exact h3 o (mem_removeAll.2 ⟨ho, hocl⟩)
  · intro o ho
    rcases List.mem_cons.1 ho with rfl | ho
    · exact Or.inr (h2 o ((mem_cascadeInsert clOps rm).2 (Or.inr ((hcl o).2 hopmem))))
    · exact h4 o ho
  · intro o ho
    rcases h5 o ho with h' | h'
    · exact Or.inl (mem_removeAll.1 h').1
    · exact Or.inr (List.mem_cons_of_mem op h')
  · intro o ho
    rcases h6 o ho with h' | h' | ⟨p, ci', r', hp, hrest⟩
    · rcases (mem_cascadeInsert clOps rm).1 h' with h'' | h''
      · exact Or.inl h''
      · exact Or.inr (Or.inr ⟨op, ci, r, List.mem_cons_self op rest, hopc, hroot,
          (hcl o).1 h''⟩)
    · exact Or.inr (Or.inl (List.mem_cons_of_mem op h'))
    · exact Or.inr (Or.inr ⟨p, ci', r', List.mem_cons_of_mem op hp, hrest⟩)

theorem moveScanPost_moveIns {opc : Nat → Option Nat} {s₀ : ClusterState}
    {ms rm rest : List Nat} {op : Nat} {out : List Nat × List Nat × ClusterState}
    (h : MoveScanPost opc s₀ (ms ++ [op]) rm rest out) :
    MoveScanPost opc s₀ ms rm (op :: rest) out := by
  obtain ⟨h1, h2, h3, h4, h5, h6, h7, h8, h9⟩ := h
  refine ⟨h1, h2, ?_, ?_, ?_, ?_, h7, h8, h9⟩
  · intro o ho
    exact h3 o (List.mem_append_left _ ho)
  · intro o ho
    rcases List.mem_cons.1 ho with rfl | ho
    · exact h3 o (List.mem_append_right _ (List.mem_singleton.2 rfl))
    · exact h4 o ho
  · intro o ho
    rcases h5 o ho with h' | h'
    · rcases List.mem_append.1 h' with h'' | h''
      · exact Or.inl h''
      · have : o = op := List.mem_singleton.1 h''
        subst this
        exact Or.inr (List.mem_cons_self o rest)
    · exact Or.inr (List.mem_cons_of_mem op h')
  · intro o ho
    rcases h6 o ho with h' | h' | ⟨p, ci, r, hp, hrest⟩
    · exact Or.inl h'
    · exact Or.inr (Or.inl (List.mem_cons_of_mem op h'))
    · exact Or.inr (Or.inr ⟨p, ci, r, List.mem_cons_of_mem op hp, hrest⟩)

theorem moveScan_main (dep : Nat → List Nat → Bool) (opc : Nat → Option Nat)
    (casc : List Nat → List Nat) (hcasc : ∀ (l : List Nat) (x : Nat), x ∈ casc l ↔ x ∈ l)
    {s₀ : ClusterState} (hA : Acyclic s₀) (hco : ClusterCoherent opc s₀) :
    ∀ (vec ms rm : List Nat) (s : ClusterState),
      Compressed s₀ s → vec.Nodup → rm.Nodup →
      (∀ o, o ∈ vec → o ∉ ms) → (∀ o, o ∈ ms → o ∉ rm) →
      CascClosed opc s₀ ms rm →
      MoveScanPost opc s₀ ms rm vec (moveScan dep opc casc vec ms rm s) := by
  intro vec
  induction vec with
  | nil =>
    intro ms rm s hc hvn hrn hvm hd hcc
    rw [moveScan]
    exact ⟨hc, fun o h => h, fun o h => Or.inl h,
      fun o h => absurd h (List.not_mem_nil o), fun o h => Or.inl h,
      fun o h => Or.inl h, fun o h1 h2 => (hd o h1) h2, hcc, hrn⟩
  | cons op rest ih =>
    intro ms rm s hc hvn hrn hvm hd hcc
    have hvn' : rest.Nodup := hvn.of_cons
    have hopnotrest : op ∉ rest := (List.nodup_cons.1 hvn).1
    have hopms : op ∉ ms := hvm op (List.mem_cons_self op rest)
    rw [moveScan]
    by_cases hin : op ∈ rm
    · rw [if_pos (containsIff.2 hin)]
      exact moveScanPost_skip hin
        (ih ms rm s hc hvn' hrn (fun o ho => hvm o (List.mem_cons_of_mem op ho)) hd hcc)
    · rw [if_neg (fun hcnt => hin (containsIff.1 hcnt))]
      by_cases hdep : dep op rm
      · rw [if_pos hdep]
        cases hopc : opc op with
        | none =>
          refine moveScanPost_remainIns (ih ms (rm ++ [op]) s hc hvn' ?_
            (fun o ho => hvm o (List.mem_cons_of_mem op ho)) ?_ ?_)
          · rw [List.nodup_append]
            exact ⟨hrn, List.nodup_singleton op, by simpa using hin⟩
          · intro o ho
            rw [List.mem_append]
            rintro (h' | h')
            · exact hd o ho h'
            · have : o = op := List.mem_singleton.1 h'
              subst this
              exact hopms ho
          · intro o ho ci hci r hr m hm
            rcases List.mem_append.1 ho with ho' | ho'
            · exact ⟨List.mem_append_left _ (hcc o ho' ci hci r hr m hm).1,
                (hcc o ho' ci hci r hr m hm).2⟩
            · have : o = op := List.mem_singleton.1 ho'
              subst this
              rw [hopc] at hci
              exact Option.noConfusion hci
        | some ci =>
          dsimp only
          have hAs : Acyclic s := compressed_acyclic hA hc
          obtain ⟨hspec1, hspec2⟩ := getRootD_spec hAs ci
          have hc' : Compressed s₀ (getRootD s ci).2 := compressed_trans hc hspec2
          have hroot₀ : rootOf s₀ ci = some (getRootD s ci).1 := by
            rw [← hc.2.2.2.2.1 ci]
            exact hspec1
          have hclof : ∀ x, x ∈ casc (((getRootD s ci).2.getRec (getRootD s ci).1).operations) ↔
              x ∈ (s₀.getRec (getRootD s ci).1).operations := by
            intro x
            rw [hcasc, hc'.2.1 (getRootD s ci).1]
          obtain ⟨r₀, hr₀, hmem₀, hmates₀⟩ := hco op ci hopc
          have hreq : r₀ = (getRootD s ci).1 := by
            rw [hroot₀] at hr₀
            exact (Option.some.inj hr₀).symm
          subst hreq
          refine moveScanPost_cascade hopc hroot₀ hclof hmem₀
            (ih _ _ _ hc' hvn' ?_ ?_ ?_ ?_)
          · exact cascadeInsert_nodup _ rm hrn
          · intro o ho hms
            exact hvm o (List.mem_cons_of_mem op ho) (mem_removeAll.1 hms).1
          · intro o ho
            have h1 := mem_removeAll.1 ho
            rw [mem_cascadeInsert]
            rintro (h' | h')
            · exact hd o h1.1 h'
            · exact h1.2 h'
          · intro o ho ci' hci' r' hr' m hm
            rcases (mem_cascadeInsert _ rm).1 ho with ho' | ho'
            · obtain ⟨hm1, hm2⟩ := hcc o ho' ci' hci' r' hr' m hm
              refine ⟨(mem_cascadeInsert _ rm).2 (Or.inl hm1), fun hms => hm2 (mem_removeAll.1 hms).1⟩
            · obtain ⟨cm, hcm1, hcm2⟩ := hmates₀ o ((hclof o).1 ho')
              have hceq : ci' = cm := by
                rw [hci'] at hcm1
                exact Option.some.inj hcm1
              subst hceq
              have hre : r' = (getRootD s ci).1 := by
                rw [hcm2] at hr'
                exact (Option.some.inj hr').symm
              subst hre
              refine ⟨(mem_cascadeInsert _ rm).2 (Or.inr ((hclof m).2 hm)), fun hms => ?_⟩
              exact (mem_removeAll.1 hms).2 ((hclof m).2 hm)
      · rw [if_neg hdep]
        rw [if_neg (fun hcnt => hopms (containsIff.1 hcnt))]
        refine moveScanPost_moveIns (ih (ms ++ [op]) rm s hc hvn' hrn ?_ ?_ ?_)
        · intro o ho
          rw [List.mem_append]
          rintro (h' | h')
          · exact hvm o (List.mem_cons_of_mem op ho) h'
          · exact hopnotrest (List.mem_singleton.1 h' ▸ ho)
        · intro o ho
          rcases List.mem_append.1 ho with h' | h'
          · exact hd o h'
          · have : o = op := List.mem_singleton.1 h'
            subst this
            exact hin
        · intro o ho ci hci r hr m hm
          obtain ⟨hm1, hm2⟩ := hcc o ho ci hci r hr m hm
          refine ⟨hm1, fun hms => ?_⟩
          rcases List.mem_append.1 hms with h' | h'
          · exact hm2 h'
          · have : m = op := List.mem_singleton.1 h'
            subst this
            exact hin hm1

theorem moveScanPost_reverse {opc : Nat → Option Nat} {s₀ : ClusterState}
    {vec : List Nat} {out : List Nat × List Nat × ClusterState}
    (h : MoveScanPost opc s₀ [] [] vec.reverse out) :
    MoveScanPost opc s₀ [] [] vec (out.1, out.2.1.reverse, out.2.2) := by
  obtain ⟨h1, h2, h3, h4, h5, h6, h7, h8, h9⟩ := h
  refine ⟨h1, fun o ho => absurd ho (List.not_mem_nil o),
    fun o ho => absurd ho (List.not_mem_nil o), ?_, ?_, ?_, ?_, ?_, ?_⟩
  · intro o ho
    rcases h4 o (List.mem_reverse.2 ho) with h' | h'
    · exact Or.inl h'
    · exact Or.inr (List.mem_reverse.2 h')
  · intro o ho
    rcases h5 o ho with h' | h'
    · exact Or.inl h'
    · exact Or.inr (List.mem_reverse.1 h')
  · intro o ho
    rcases h6 o (List.mem_reverse.1 ho) with h' | h' | ⟨p, ci, r, hp, hrest⟩
    · exact Or.inl h'
    · exact Or.inr (Or.inl (List.mem_reverse.1 h'))
    · exact Or.inr (Or.inr ⟨p, ci, r, List.mem_reverse.1 hp, hrest⟩)
  · intro o ho hor
    exact h7 o ho (List.mem_reverse.1 hor)
  · intro o ho ci hci r hr m hm
    obtain ⟨hm1, hm2⟩ := h8 o (List.mem_reverse.1 ho) ci hci r hr m hm
    exact ⟨List.mem_reverse.2 hm1, hm2⟩
  · exact List.nodup_reverse.2 h9

theorem computeMoveUpSet_post (env : Env) (opc : Nat → Option Nat)
    (target vec : List Nat) {s₀ s : ClusterState} (hA : Acyclic s₀)
    (hco : ClusterCoherent opc s₀) (hc : Compressed s₀ s) (hvn : vec.Nodup) :
    MoveScanPost opc s₀ [] [] vec (computeMoveUpSet env opc target vec s) := by
  unfold computeMoveUpSet
  exact moveScan_main _ opc id (fun l x => Iff.rfl) hA hco vec [] [] s hc hvn
    List.nodup_nil (fun o _ h => absurd h (List.not_mem_nil o))
    (fun o h => absurd h (List.not_mem_nil o))
    (fun o ho => absurd ho (List.not_mem_nil o))

theorem computeMoveDownSet_post (env : Env) (opc : Nat → Option Nat)
    (target vec : List Nat) {s₀ s : ClusterState} (hA : Acyclic s₀)
    (hco : ClusterCoherent opc s₀) (hc : Compressed s₀ s) (hvn : vec.Nodup) :
    MoveScanPost opc s₀ [] [] vec (computeMoveDownSet env opc target vec s) := by
  have hmain := moveScan_main
    (fun op remain => anyUseIn env op target || anyUseIn env op remain) opc
    List.reverse (fun l x => List.mem_reverse) hA hco vec.reverse [] [] s hc
    (List.nodup_reverse.2 hvn) List.nodup_nil
    (fun o _ h => absurd h (List.not_mem_nil o))
    (fun o h => absurd h (List.not_mem_nil o))
    (fun o ho => absurd ho (List.not_mem_nil o))
  exact moveScanPost_reverse hmain

theorem moveScan_compressed (dep : Nat → List Nat → Bool) (opc : Nat → Option Nat)
    (casc : List Nat → List Nat) {s₀ : ClusterState} (hA : Acyclic s₀) :
    ∀ (vec ms rm : List Nat) (s : ClusterState), Compressed s₀ s →
      Compressed s₀ (moveScan dep opc casc vec ms rm s).2.2 := by
  intro vec
  induction vec with
  | nil => intro ms rm s hc; rw [moveScan]; exact hc
  | cons op rest ih =>
    intro ms rm s hc
    rw [moveScan]
    by_cases hin : rm.contains op = true
    · rw [if_pos hin]; exact ih ms rm s hc
    · rw [if_neg hin]
      by_cases hdep : dep op rm
      · rw [if_pos hdep]
        cases hopc : opc op with
        | none => exact ih ms (rm ++ [op]) s hc
        | some ci =>
          dsimp only
          have hAs : Acyclic s := compressed_acyclic hA hc
          obtain ⟨_, hspec2⟩ := getRootD_spec hAs ci
          exact ih _ _ _ (compressed_trans hc hspec2)
      · rw [if_neg hdep]
        exact ih _ rm s hc

theorem computeMoveUpSet_compressed (env : Env) (opc : Nat → Option Nat)
    (target vec : List Nat) {s : ClusterState} (hA : Acyclic s) :
    Compressed s (computeMoveUpSet env opc target vec s).2.2 :=
  moveScan_compressed _ opc id hA vec [] [] s (compressed_refl s)

theorem computeMoveDownSet_compressed (env : Env) (opc : Nat → Option Nat)
    (target vec : List Nat) {s : ClusterState} (hA : Acyclic s) :
    Compressed s (computeMoveDownSet env opc target vec s).2.2 :=
  moveScan_compressed _ opc List.reverse hA vec.reverse [] [] s (compressed_refl s)

theorem mergeComputation_compressed (env : Env) (opc : Nat → Option Nat)
    (f t : Nat) {s : ClusterState} (blk : List Nat) (hA : Acyclic s) :
    Compressed s (mergeComputation env opc f t s blk).2.2.2 := by
  unfold mergeComputation
  by_cases hb : isBeforeInBlock blk (s.getRec f) (s.getRec t)
  · rw [if_pos hb]
    dsimp only
    have h1 := computeMoveUpSet_compressed env opc (s.getRec f).operations
      (betweenOps blk (clBack (s.getRec f)) (clFront (s.getRec t))) hA
    have hA1 : Acyclic (computeMoveUpSet env opc (s.getRec f).operations
        (betweenOps blk (clBack (s.getRec f)) (clFront (s.getRec t))) s).2.2 :=
      compressed_acyclic hA h1
    have h2 := computeMoveDownSet_compressed env opc (s.getRec t).operations
      (computeMoveUpSet env opc (s.getRec f).operations
        (betweenOps blk (clBack (s.getRec f)) (clFront (s.getRec t))) s).2.1 hA1
    exact compressed_trans h1 h2
  · rw [if_neg hb]
    dsimp only
    have h1 := computeMoveDownSet_compressed env opc (s.getRec f).operations
      (betweenOps blk (clBack (s.getRec t)) (clFront (s.getRec f))) hA
    have hA1 : Acyclic (computeMoveDownSet env opc (s.getRec f).operations
        (betweenOps blk (clBack (s.getRec t)) (clFront (s.getRec f))) s).2.2 :=
      compressed_acyclic hA h1
    have h2 := computeMoveUpSet_compressed env opc (s.getRec t).operations
      (computeMoveDownSet env opc (s.getRec f).operations
        (betweenOps blk (clBack (s.getRec t)) (clFront (s.getRec f))) s).2.1 hA1
    exact compressed_trans h1 h2

theorem gapClosedB_spec {opc : Nat → Option Nat} {s : ClusterState} {vec : List Nat}
    (h : gapClosedB opc s vec = true) :
    ∀ o, o ∈ vec → ∀ ci, opc o = some ci → ∀ r, rootOf s ci = some r →
      ∀ m, m ∈ (s.getRec r).operations → m ∈ vec := by
  intro o ho ci hci r hr m hm
  have h1 := List.all_eq_true.1 h o ho
  rw [hci] at h1
  dsimp only at h1
  rw [hr] at h1
  dsimp only at h1
  exact containsIff.1 (List.all_eq_true.1 h1 m hm)

theorem twoPass_residual_iff {opc : Nat → Option Nat} {s : ClusterState}
    {gap : List Nat} {out1 out2 : List Nat × List Nat × ClusterState}
    (p1 : MoveScanPost opc s [] [] gap out1)
    (p2 : MoveScanPost opc s [] [] out1.2.1 out2)
    (hgc : ∀ o, o ∈ gap → ∀ ci, opc o = some ci → ∀ r, rootOf s ci = some r →
      ∀ m, m ∈ (s.getRec r).operations → m ∈ gap) :
    (out2.2.1 = [] ↔ ∀ o, o ∈ gap → o ∈ out1.1 ∨ o ∈ out2.1) := by
  constructor
  · intro hnil o ho
    rcases p1.2.2.2.1 o ho with h' | h'
    · exact Or.inl h'
    · rcases p2.2.2.2.1 o h' with h'' | h''
      · exact Or.inr h''
      · rw [hnil] at h''
        exact absurd h'' (List.not_mem_nil o)
  · intro hsub
    refine List.eq_nil_iff_forall_not_mem.2 ?_
    intro o ho
    have horem1 : o ∈ out1.2.1 := by
      rcases p2.2.2.2.2.2.1 o ho with h' | h' | ⟨p, ci, r, hp, hopc, hroot, hmem⟩
      · exact absurd h' (List.not_mem_nil o)
      · exact h'
      · exact (p1.2.2.2.2.2.2.2.1 p hp ci hopc r hroot o hmem).1
    have hogap : o ∈ gap := by
      rcases p1.2.2.2.2.2.1 o horem1 with h' | h' | ⟨p, ci, r, hp, hopc, hroot, hmem⟩
      · exact absurd h' (List.not_mem_nil o)
      · exact h'
      · exact hgc p hp ci hopc r hroot o hmem
    rcases hsub o hogap with hU | hD
    · exact p1.2.2.2.2.2.2.1 o hU horem1
    · exact p2.2.2.2.2.2.2.1 o hD ho

theorem mergeComputation_post (env : Env) {dom : List Nat} {opc : Nat → Option Nat}
    (f t : Nat) {s : ClusterState} (blk : List Nat) (hUF : UFInv dom opc s)
    (hgn : (mergeGapOf s blk f t).Nodup)
    (hgc : gapClosedB opc s (mergeGapOf s blk f t) = true) :
    ((mergeComputation env opc f t s blk).2.2.1 = [] ↔
      ∀ o, o ∈ mergeGapOf s blk f t →
        o ∈ (mergeComputation env opc f t s blk).1 ∨
        o ∈ (mergeComputation env opc f t s blk).2.1) := by
  have hA := hUF.acyc
  have hco := ufInv_coherent hUF
  have hgc' := gapClosedB_spec hgc
  by_cases hb : isBeforeInBlock blk (s.getRec f) (s.getRec t)
  · have hgap : mergeGapOf s blk f t =
        betweenOps blk (clBack (s.getRec f)) (clFront (s.getRec t)) := by
      rw [mergeGapOf, if_pos hb]
    rw [hgap] at hgn hgc' ⊢
    have p1 := computeMoveUpSet_post env opc (s.getRec f).operations
      (betweenOps blk (clBack (s.getRec f)) (clFront (s.getRec t))) hA hco
      (compressed_refl s) hgn
    have p2 := computeMoveDownSet_post env opc (s.getRec t).operations
      (computeMoveUpSet env opc (s.getRec f).operations
        (betweenOps blk (clBack (s.getRec f)) (clFront (s.getRec t))) s).2.1
      hA hco p1.1 p1.2.2.2.2.2.2.2.2
    have hiff := twoPass_residual_iff p1 p2 hgc'
    have hcdef : mergeComputation env opc f t s blk =
        ((computeMoveUpSet env opc (s.getRec f).operations
          (betweenOps blk (clBack (s.getRec f)) (clFront (s.getRec t))) s).1,
         (computeMoveDownSet env opc (s.getRec t).operations
          (computeMoveUpSet env opc (s.getRec f).operations
            (betweenOps blk (clBack (s.getRec f)) (clFront (s.getRec t))) s).2.1
          (computeMoveUpSet env opc (s.getRec f).operations
            (betweenOps blk (clBack (s.getRec f)) (clFront (s.getRec t))) s).2.2).1,
         (computeMoveDownSet env opc (s.getRec t).operations
          (computeMoveUpSet env opc (s.getRec f).operations
            (betweenOps blk (clBack (s.getRec f)) (clFront (s.getRec t))) s).2.1
          (computeMoveUpSet env opc (s.getRec f).operations
            (betweenOps blk (clBack (s.getRec f)) (clFront (s.getRec t))) s).2.2).2.1,
         (computeMoveDownSet env opc (s.getRec t).operations
          (computeMoveUpSet env opc (s.getRec f).operations
            (betweenOps blk (clBack (s.getRec f)) (clFront (s.getRec t))) s).2.1
          (computeMoveUpSet env opc (s.getRec f).operations
            (betweenOps blk (clBack (s.getRec f)) (clFront (s.getRec t))) s).2.2).2.2) := by
      unfold mergeComputation
      rw [if_pos hb]
    rw [hcdef]
    exact hiff
  · have hgap : mergeGapOf s blk f t =
        betweenOps blk (clBack (s.getRec t)) (clFront (s.getRec f)) := by
      rw [mergeGapOf, if_neg hb]
    rw [hgap] at hgn hgc' ⊢
    have p1 := computeMoveDownSet_post env opc (s.getRec f).operations
      (betweenOps blk (clBack (s.getRec t)) (clFront (s.getRec f))) hA hco
      (compressed_refl s) hgn
    have p2 := computeMoveUpSet_post env opc (s.getRec t).operations
      (computeMoveDownSet env opc (s.getRec f).operations
        (betweenOps blk (clBack (s.getRec t)) (clFront (s.getRec f))) s).2.1
      hA hco p1.1 p1.2.2.2.2.2.2.2.2
    have hiff := twoPass_residual_iff p1 p2 hgc'
    have hcdef : mergeComputation env opc f t s blk =
        ((computeMoveUpSet env opc (s.getRec t).operations
          (computeMoveDownSet env opc (s.getRec f).operations
            (betweenOps blk (clBack (s.getRec t)) (clFront (s.getRec f))) s).2.1
          (computeMoveDownSet env opc (s.getRec f).operations
            (betweenOps blk (clBack (s.getRec t)) (clFront (s.getRec f))) s).2.2).1,
         (computeMoveDownSet env opc (s.getRec f).operations
          (betweenOps blk (clBack (s.getRec t)) (clFront (s.getRec f))) s).1,
         (computeMoveUpSet env opc (s.getRec t).operations
          (computeMoveDownSet env opc (s.getRec f).operations
            (betweenOps blk (clBack (s.getRec t)) (clFront (s.getRec f))) s).2.1
          (computeMoveDownSet env opc (s.getRec f).operations
            (betweenOps blk (clBack (s.getRec t)) (clFront (s.getRec f))) s).2.2).2.1,
         (computeMoveUpSet env opc (s.getRec t).operations
          (computeMoveDownSet env opc (s.getRec f).operations
            (betweenOps blk (clBack (s.getRec t)) (clFront (s.getRec f))) s).2.1
          (computeMoveDownSet env opc (s.getRec f).operations
            (betweenOps blk (clBack (s.getRec t)) (clFront (s.getRec f))) s).2.2).2.2) := by
      unfold mergeComputation
      rw [if_neg hb]
    rw [hcdef]
    constructor
    · intro hnil o ho
      rcases (hiff.1 hnil) o ho with h' | h'
      · exact Or.inr h'
      · exact Or.inl h'
    · intro hsub
      refine hiff.2 ?_
      intro o ho
      rcases hsub o ho with h' | h'
      · exact Or.inr h'
      · exact Or.inl h'

theorem tryMergeInto_fst (env : Env) (opc : Nat → Option Nat) (f t : Nat)
    (s : ClusterState) (blk : List Nat) :
    (tryMergeInto env opc f t s blk).1 =
      (mergeComputation env opc f t s blk).2.2.1.isEmpty := by
  unfold tryMergeInto
  dsimp only
  by_cases hres : (mergeComputation env opc f t s blk).2.2.1.isEmpty
  · rw [if_neg (by rw [hres]; simp)]
    rw [hres]
    by_cases hb : isBeforeInBlock blk (s.getRec f) (s.getRec t)
    · rw [if_pos hb]
    · rw [if_neg hb]
  · rw [if_pos (by
      cases hx : (mergeComputation env opc f t s blk).2.2.1.isEmpty with
      | false => rfl
      | true => exact absurd hx hres), eq_comm, Bool.eq_false_iff]
    exact hres

theorem tryMergeInto_fail (env : Env) (opc : Nat → Option Nat) (f t : Nat)
    (s : ClusterState) (blk : List Nat)
    (h : (tryMergeInto env opc f t s blk).1 = false) :
    (tryMergeInto env opc f t s blk).2.2 = blk ∧
    (tryMergeInto env opc f t s blk).2.1 = (mergeComputation env opc f t s blk).2.2.2 := by
  have hres : (mergeComputation env opc f t s blk).2.2.1.isEmpty = false := by
    rw [← tryMergeInto_fst env opc f t s blk]
    exact h
  unfold tryMergeInto
  dsimp only
  rw [if_pos (by rw [hres]; rfl)]
  exact ⟨rfl, rfl⟩

theorem ufInv_tryMergeInto (env : Env) {dom : List Nat} {opc : Nat → Option Nat}
    {s : ClusterState} (f t : Nat) (blk : List Nat) (hUF : UFInv dom opc s)
    (hft : f ≠ t) (hf : parentOf s f = none) (ht : parentOf s t = none)
    (hflen : f < arenaLen s) (htlen : t < arenaLen s) :
    UFInv dom opc (tryMergeInto env opc f t s blk).2.1 := by
  have hcomp : Compressed s (mergeComputation env opc f t s blk).2.2.2 :=
    mergeComputation_compressed env opc f t blk hUF.acyc
  have hUF2 : UFInv dom opc (mergeComputation env opc f t s blk).2.2.2 :=
    ufInv_compressed hUF hcomp
  have hf2 : parentOf (mergeComputation env opc f t s blk).2.2.2 f = none :=
    (hcomp.2.2.1 f).2 hf
  have ht2 : parentOf (mergeComputation env opc f t s blk).2.2.2 t = none :=
    (hcomp.2.2.1 t).2 ht
  have hflen2 : f < arenaLen (mergeComputation env opc f t s blk).2.2.2 := by
    rw [hcomp.1]; exact hflen
  have htlen2 : t < arenaLen (mergeComputation env opc f t s blk).2.2.2 := by
    rw [hcomp.1]; exact htlen
  unfold tryMergeInto
  dsimp only
  by_cases hres : (mergeComputation env opc f t s blk).2.2.1.isEmpty
  · rw [if_neg (by rw [hres]; simp)]
    by_cases hb : isBeforeInBlock blk (s.getRec f) (s.getRec t)
    · rw [if_pos hb]
      dsimp only
      refine ufInv_linkMerge f t _ hUF2 hft hf2 ht2 hflen2 htlen2 ?_
      intro x
      rw [List.mem_append, hcomp.2.1 f, hcomp.2.1 t]
    · rw [if_neg hb]
      dsimp only
      refine ufInv_linkMerge f t _ hUF2 hft hf2 ht2 hflen2 htlen2 ?_
      intro x
      rw [List.mem_append, hcomp.2.1 f, hcomp.2.1 t]
      tauto
  · rw [if_pos (by
      cases hx : (mergeComputation env opc f t s blk).2.2.1.isEmpty with
      | false => rfl
      | true => exact absurd hx hres)]
    exact hUF2

theorem getCluster_spec {dom : List Nat} {opc : Nat → Option Nat} {s : ClusterState}
    (hUF : UFInv dom opc s) (op : Nat) :
    Compressed s (getCluster opc s op).2 ∧
    ∀ r, (getCluster opc s op).1 = some r → parentOf s r = none ∧ r < arenaLen s := by
  unfold getCluster
  cases hopc : opc op with
  | none => exact ⟨compressed_refl s, fun r h => Option.noConfusion h⟩
  | some ci =>
    dsimp only
    obtain ⟨h1, h2⟩ := getRootD_spec hUF.acyc ci
    refine ⟨h2, ?_⟩
    intro r hr
    have hreq : (getRootD s ci).1 = r := Option.some.inj hr
    subst hreq
    refine ⟨rootOf_isRoot h1, ?_⟩
    have hop : op ∈ dom := hUF.opcDom op ci hopc
    obtain ⟨ci', hci', hcilt⟩ := hUF.opcRange op hop
    have hcieq : ci' = ci := by
      rw [hopc] at hci'
      exact (Option.some.inj hci').symm
    subst hcieq
    rcases rootOf_lt hUF.acyc h1 with hre | hrlt
    · rw [hre]; exact hcilt
    · exact hrlt

theorem ufInv_tryMerge (env : Env) {dom : List Nat} {opc : Nat → Option Nat}
    {s : ClusterState} (lhs rhs : Option Nat) (blk : List Nat)
    (hUF : UFInv dom opc s)
    (hll : ∀ l, lhs = some l → l < arenaLen s)
    (hrl : ∀ r, rhs = some r → r < arenaLen s) :
    UFInv dom opc (tryMerge env opc lhs rhs s blk).2.1 := by
  cases lhs with
  | none => exact hUF
  | some l =>
    cases rhs with
    | none => exact hUF
    | some r =>
      unfold tryMerge
      dsimp only
      by_cases hlr : l = r
      · rw [if_pos hlr]; exact hUF
      · rw [if_neg hlr]
        by_cases hroots : (parentOf s l).isSome || (parentOf s r).isSome
        · rw [if_pos hroots]; exact hUF
        · rw [if_neg hroots]
          have hl0 : parentOf s l = none := by
            cases hp : parentOf s l with
            | none => rfl
            | some x => rw [hp] at hroots; simp at hroots
          have hr0 : parentOf s r = none := by
            cases hp : parentOf s r with
            | none => rfl
            | some x => rw [hp] at hroots; simp at hroots
          have ha := ufInv_tryMergeInto env l r blk hUF hlr hl0 hr0
            (hll l rfl) (hrl r rfl)
          by_cases hfst : (tryMergeInto env opc l r s blk).1
          · rw [if_pos hfst]
            exact ha
          · rw [if_neg hfst]
            obtain ⟨hblk, hst⟩ := tryMergeInto_fail env opc l r s blk
              (Bool.not_eq_true _ ▸ Bool.eq_false_iff.2 hfst)
            have hcomp : Compressed s (tryMergeInto env opc l r s blk).2.1 := by
              rw [hst]
              exact mergeComputation_compressed env opc l r blk hUF.acyc
            have hl1 : parentOf (tryMergeInto env opc l r s blk).2.1 l = none :=
              (hcomp.2.2.1 l).2 hl0
            have hr1 : parentOf (tryMergeInto env opc l r s blk).2.1 r = none :=
              (hcomp.2.2.1 r).2 hr0
            have hb := ufInv_tryMergeInto env r l (tryMergeInto env opc l r s blk).2.2
              ha (fun hc => hlr hc.symm) hr1 hl1
              (by rw [hcomp.1]; exact hrl r rfl) (by rw [hcomp.1]; exact hll l rfl)
            by_cases hsnd : (tryMergeInto env opc r l (tryMergeInto env opc l r s blk).2.1
                (tryMergeInto env opc l r s blk).2.2).1
            · rw [if_pos hsnd]
              exact hb
            · rw [if_neg hsnd]
              exact hb

theorem ufInv_mergeStep (env : Env) {dom : List Nat} {opc : Nat → Option Nat}
    {st : ClusterState × List Nat} (cmd : Nat × Nat)
    (hUF : UFInv dom opc st.1) : UFInv dom opc (mergeStep env opc st cmd).1 := by
  unfold mergeStep
  dsimp only
  obtain ⟨hca, hra⟩ := getCluster_spec hUF cmd.1
  have hUFa : UFInv dom opc (getCluster opc st.1 cmd.1).2 := ufInv_compressed hUF hca
  obtain ⟨hcb, hrb⟩ := getCluster_spec hUFa cmd.2
  have hUFb : UFInv dom opc (getCluster opc (getCluster opc st.1 cmd.1).2 cmd.2).2 :=
    ufInv_compressed hUFa hcb
  refine ufInv_tryMerge env _ _ st.2 hUFb ?_ ?_
  · intro l hl
    have h1 := (hra l hl).2
    rw [hcb.1, hca.1]
    exact h1
  · intro r hr
    have h1 := (hrb r hr).2
    rw [hcb.1]
    exact h1

theorem ufInv_applyMerges (env : Env) {dom : List Nat} {opc : Nat → Option Nat}
    (cmds : List (Nat × Nat)) :
    ∀ (st : ClusterState × List Nat), UFInv dom opc st.1 →
      UFInv dom opc (applyMerges env opc cmds st).1 := by
  induction cmds with
  | nil => intro st h; exact h
  | cons cmd rest ih =>
    intro st h
    rw [applyMerges, List.foldl_cons]
    exact ih (mergeStep env opc st cmd) (ufInv_mergeStep env cmd h)

theorem tryMerge_fail_state (env : Env) {dom : List Nat} {opc : Nat → Option Nat}
    {s : ClusterState} (lhs rhs : Option Nat) (blk : List Nat)
    (hUF : UFInv dom opc s)
    (hfail : (tryMerge env opc lhs rhs s blk).1 = none) :
    (tryMerge env opc lhs rhs s blk).2.2 = blk ∧
    Compressed s (tryMerge env opc lhs rhs s blk).2.1 := by
  cases lhs with
  | none => exact ⟨rfl, compressed_refl s⟩
  | some l =>
    cases rhs with
    | none => exact ⟨rfl, compressed_refl s⟩
    | some r =>
      unfold tryMerge at hfail ⊢
      dsimp only at hfail ⊢
      by_cases hlr : l = r
      · rw [if_pos hlr]
        exact ⟨rfl, compressed_refl s⟩
      · rw [if_neg hlr] at hfail ⊢
        by_cases hroots : (parentOf s l).isSome || (parentOf s r).isSome
        · rw [if_pos hroots]
          exact ⟨rfl, compressed_refl s⟩
        · rw [if_neg hroots] at hfail ⊢
          by_cases hfst : (tryMergeInto env opc l r s blk).1
          · rw [if_pos hfst] at hfail
            exact Option.noConfusion hfail
          · rw [if_neg hfst] at hfail ⊢
            obtain ⟨hblk1, hst1⟩ := tryMergeInto_fail env opc l r s blk
              (Bool.not_eq_true _ ▸ Bool.eq_false_iff.2 hfst)
            have hcomp1 : Compressed s (tryMergeInto env opc l r s blk).2.1 := by
              rw [hst1]
              exact mergeComputation_compressed env opc l r blk hUF.acyc
            have hUF1 : UFInv dom opc (tryMergeInto env opc l r s blk).2.1 :=
              ufInv_compressed hUF hcomp1
            by_cases hsnd : (tryMergeInto env opc r l (tryMergeInto env opc l r s blk).2.1
                (tryMergeInto env opc l r s blk).2.2).1
            · rw [if_pos hsnd] at hfail
              exact Option.noConfusion hfail
            · rw [if_neg hsnd]
              obtain ⟨hblk2, hst2⟩ := tryMergeInto_fail env opc r l
                (tryMergeInto env opc l r s blk).2.1 (tryMergeInto env opc l r s blk).2.2
                (Bool.not_eq_true _ ▸ Bool.eq_false_iff.2 hsnd)
              have hcomp2 : Compressed (tryMergeInto env opc l r s blk).2.1
                  (tryMergeInto env opc r l (tryMergeInto env opc l r s blk).2.1
                    (tryMergeInto env opc l r s blk).2.2).2.1 := by
                rw [hst2]
                exact mergeComputation_compressed env opc r l _ hUF1.acyc
              refine ⟨?_, compressed_trans hcomp1 hcomp2⟩
              rw [hblk2, hblk1]

/-- C10: `tryMerge` returns `none` without touching the cluster state or the
block whenever an argument is null, the two arguments are equal, or either
argument has its `mergedInto` link set; and whenever it returns a surviving
cluster, its two arguments were distinct roots. -/
theorem C10_tryMerge_guards (env : Env) (opc : Nat → Option Nat)
    (lhs rhs : Option Nat) (s : ClusterState) (blk : List Nat) :
    ((lhs = none ∨ rhs = none ∨ lhs = rhs ∨
      (∃ l, lhs = some l ∧ parentOf s l ≠ none) ∨
      (∃ r, rhs = some r ∧ parentOf s r ≠ none)) →
      tryMerge env opc lhs rhs s blk = (none, s, blk)) ∧
    (∀ c, (tryMerge env opc lhs rhs s blk).1 = some c →
      ∃ l r, lhs = some l ∧ rhs = some r ∧ l ≠ r ∧
        parentOf s l = none ∧ parentOf s r = none) := by
  cases lhs with
  | none => exact ⟨fun _ => rfl, fun c h => Option.noConfusion h⟩
  | some l =>
    cases rhs with
    | none => exact ⟨fun _ => rfl, fun c h => Option.noConfusion h⟩
    | some r =>
      constructor
      · intro hguard
        unfold tryMerge
        dsimp only
        rcases hguard with h | h | h | ⟨l', hl', hnr⟩ | ⟨r', hr', hnr⟩
        · exact Option.noConfusion h
        · exact Option.noConfusion h
        · have hlr : l = r := Option.some.inj h
          rw [if_pos hlr]
        · have hleq : l = l' := Option.some.inj hl'
          subst hleq
          by_cases hlr : l = r
          · rw [if_pos hlr]
          · rw [if_neg hlr, if_pos ?_]
            cases hp : parentOf s l with
            | none => exact absurd hp hnr
            | some x => simp [hp]
        · have hreq : r = r' := Option.some.inj hr'
          subst hreq
          by_cases hlr : l = r
          · rw [if_pos hlr]
          · rw [if_neg hlr, if_pos ?_]
            cases hp : parentOf s r with
            | none => exact absurd hp hnr
            | some x => simp [hp]
      · intro c hc
        unfold tryMerge at hc
        dsimp only at hc
        by_cases hlr : l = r
        · rw [if_pos hlr] at hc
          exact Option.noConfusion hc
        · rw [if_neg hlr] at hc
          by_cases hroots : (parentOf s l).isSome || (parentOf s r).isSome
          · rw [if_pos hroots] at hc
            exact Option.noConfusion hc
          · rw [if_neg hroots] at hc
            have hl0 : parentOf s l = none := by
              cases hp : parentOf s l with
              | none => rfl
              | some x => rw [hp] at hroots; simp at hroots
            have hr0 : parentOf s r = none := by
              cases hp : parentOf s r with
              | none => rfl
              | some x => rw [hp] at hroots; simp at hroots
            exact ⟨l, r, rfl, rfl, hlr, hl0, hr0⟩

/-- C10 witness: the guard theorem applied to an equal pair (unchanged
state) and to a concrete successful merge of two distinct singleton roots. -/
theorem C10_tryMerge_guards_witness :
    tryMerge [] (opcOf [0, 1]) (some 3) (some 3) (initClusterState [0, 1]) [0, 1] =
      (none, initClusterState [0, 1], [0, 1]) ∧
    ∃ l r, (some 0 : Option Nat) = some l ∧ (some 1 : Option Nat) = some r ∧ l ≠ r ∧
      parentOf (initClusterState [0, 1]) l = none ∧
      parentOf (initClusterState [0, 1]) r = none := by
  constructor
  · exact (C10_tryMerge_guards [] (opcOf [0, 1]) (some 3) (some 3)
      (initClusterState [0, 1]) [0, 1]).1 (Or.inr (Or.inr (Or.inl rfl)))
  · exact (C10_tryMerge_guards [] (opcOf [0, 1]) (some 0) (some 1)
      (initClusterState [0, 1]) [0, 1]).2 1 (by decide)

/-- C7: the greedy driver runs top-down and bottom-up on clones of the
function, totals the covered op counts, re-runs on the original the
strategy with the strictly larger total — bottom-up on a tie —, uses the
single strategy that produced a result when the other produced none, and
yields nothing when both fail. -/
theorem C7_greedy {F : Type} (runTopDown runBottomUp : F → Option (List (List Nat)))
    (f : F) :
    (∀ td bu, runTopDown f = some td → runBottomUp f = some bu →
      (totalOpsCovered td ≤ totalOpsCovered bu →
        greedyMetadatas runTopDown runBottomUp f = runBottomUp f) ∧
      (totalOpsCovered td > totalOpsCovered bu →
        greedyMetadatas runTopDown runBottomUp f = runTopDown f)) ∧
    (∀ td, runTopDown f = some td → runBottomUp f = none →
      greedyMetadatas runTopDown runBottomUp f = runTopDown f) ∧
    (∀ bu, runTopDown f = none → runBottomUp f = some bu →
      greedyMetadatas runTopDown runBottomUp f = runBottomUp f) ∧
    (runTopDown f = none → runBottomUp f = none →
      greedyMetadatas runTopDown runBottomUp f = none) := by
  refine ⟨?_, ?_, ?_, ?_⟩
  · intro td bu htd hbu
    constructor
    · intro hle
      unfold greedyMetadatas
      rw [htd, hbu]
      dsimp only
      rw [if_neg (Nat.not_lt.2 hle)]
    · intro hgt
      unfold greedyMetadatas
      rw [htd, hbu]
      dsimp only
      rw [if_pos hgt]
  · intro td htd hbu
    unfold greedyMetadatas
    rw [htd, hbu]
  · intro bu htd hbu
    unfold greedyMetadatas
    rw [htd, hbu]
  · intro htd hbu
    unfold greedyMetadatas
    rw [htd, hbu]

/-- C7 witness: a tie in covered op totals (3 vs 3) selects bottom-up. -/
theorem C7_greedy_witness :
    greedyMetadatas (fun _ : Unit => some [[0, 1], [2]])
      (fun _ : Unit => some [[5, 6, 7]]) () = some [[5, 6, 7]] :=
  ((C7_greedy (fun _ : Unit => some [[0, 1], [2]])
    (fun _ : Unit => some [[5, 6, 7]]) ()).1 [[0, 1], [2]] [[5, 6, 7]] rfl rfl).1
    (by decide)

/-- C2 counterexample: one candidate cluster `[1]`, rejected by the
validator, with `enable_multi_graph = false`. `getFunctionMetadatas`
returns an engaged empty metadata vector, so the `!metadatas` test at the
call site does not fire: the pass succeeds (no function-level diagnostic,
no failure) and simply emits nothing — contradicting the claimed pass
failure. -/
theorem C2_counterexample :
    getFunctionMetadatasClustered [[1]] (some (fun _ => false)) false = some [] ∧
    graphClusteringFails
      (getFunctionMetadatasClustered [[1]] (some (fun _ => false)) false) = false := by
  constructor
  · rfl
  · rfl

/-- C2 (amended): the transformation surfaces the function-level diagnostic
and fails exactly when the strategy produces no metadata vector at all —
no candidates, or an empty largest candidate. When the sole candidate is
rejected by `validate_subgraph`, the result is an engaged empty vector and
the pass proceeds without emitting anything. -/
theorem C2_amended (candidates : List (List Nat)) (v : Option (List Nat → Bool))
    (multi : Bool) :
    (graphClusteringFails (getFunctionMetadatasClustered candidates v multi) = true ↔
      candidates = [] ∨ ∃ c0 rest, candidates = c0 :: rest ∧ c0 = []) ∧
    (∀ c f, candidates = [c] → c ≠ [] → v = some f → f c = false →
      getFunctionMetadatasClustered candidates v multi = some []) := by
  constructor
  · cases candidates with
    | nil =>
      simp [getFunctionMetadatasClustered, graphClusteringFails]
    | cons c0 rest =>
      unfold getFunctionMetadatasClustered
      dsimp only
      by_cases h0 : c0.isEmpty
      · rw [if_pos h0]
        simp only [graphClusteringFails, Option.isNone_none, true_iff]
        exact Or.inr ⟨c0, rest, rfl, List.isEmpty_iff.1 h0⟩
      · rw [if_neg h0]
        simp only [graphClusteringFails, Option.isNone_some]
        constructor
        · intro h
          exact absurd h (by simp)
        · rintro (h | ⟨c0', rest', heq, hnil⟩)
          · exact absurd h (by simp)
          · have : c0 = c0' := (List.cons.injEq _ _ _ _ ▸ heq).1
            subst this
            subst hnil
            simp at h0
  · intro c f hc hne hv hfc
    subst hc
    subst hv
    unfold getFunctionMetadatasClustered
    dsimp only
    rw [if_neg (by simpa [List.isEmpty_iff] using hne)]
    unfold selectClusters
    rw [if_neg (by simpa [List.isEmpty_iff] using hne)]
    rw [if_pos (by dsimp only; rw [hfc]; rfl)]
    rfl

/-- C2 (amended) witness: an empty candidate list makes the pass fail;
a rejected sole candidate yields the engaged empty vector. -/
theorem C2_amended_witness :
    graphClusteringFails (getFunctionMetadatasClustered [] none false) = true ∧
    getFunctionMetadatasClustered [[1]] (some (fun _ => false)) false = some [] := by
  constructor
  · exact (C2_amended [] none false).1.2 (Or.inl rfl)
  · exact (C2_amended [[1]] (some (fun _ => false)) false).2 [1] (fun _ => false)
      rfl (by decide) rfl rfl

/-- C6: a failed `tryMerge` is a no-op up to path compression of interior
links: the block is unchanged, every cluster's op list is unchanged, every
cluster's root status and root resolution are unchanged, and the records
of the two (root) argument clusters — op list and absent `mergedInto`
link — are exactly as before. -/
theorem C6_failed_merge_frame (env : Env) {dom : List Nat} {opc : Nat → Option Nat}
    {s : ClusterState} (lhs rhs : Option Nat) (blk : List Nat)
    (hUF : UFInv dom opc s)
    (hfail : (tryMerge env opc lhs rhs s blk).1 = none) :
    (tryMerge env opc lhs rhs s blk).2.2 = blk ∧
    (∀ k, ((tryMerge env opc lhs rhs s blk).2.1.getRec k).operations =
      (s.getRec k).operations) ∧
    (∀ k, parentOf (tryMerge env opc lhs rhs s blk).2.1 k = none ↔
      parentOf s k = none) ∧
    (∀ k, rootOf (tryMerge env opc lhs rhs s blk).2.1 k = rootOf s k) ∧
    (∀ l, lhs = some l → parentOf s l = none →
      (tryMerge env opc lhs rhs s blk).2.1.getRec l = s.getRec l) ∧
    (∀ r, rhs = some r → parentOf s r = none →
      (tryMerge env opc lhs rhs s blk).2.1.getRec r = s.getRec r) := by
  obtain ⟨hblk, hcomp⟩ := tryMerge_fail_state env lhs rhs blk hUF hfail
  exact ⟨hblk, hcomp.2.1, hcomp.2.2.1, hcomp.2.2.2.2.1,
    fun l _ hl => hcomp.2.2.2.2.2 l hl, fun r _ hr => hcomp.2.2.2.2.2 r hr⟩

/-- C6 witness: merging the singleton clusters `{0}` and `{2}` across the
blocking gap op 1 fails, and the frame theorem yields the unchanged block,
op lists and root records. -/
theorem C6_failed_merge_frame_witness :
    (tryMerge exEnvChain (opcOf [0, 1, 2]) (some 0) (some 2)
      (initClusterState [0, 1, 2]) [0, 1, 2]).2.2 = [0, 1, 2] ∧
    ((tryMerge exEnvChain (opcOf [0, 1, 2]) (some 0) (some 2)
      (initClusterState [0, 1, 2]) [0, 1, 2]).2.1.getRec 0).operations =
      ((initClusterState [0, 1, 2]).getRec 0).operations ∧
    (tryMerge exEnvChain (opcOf [0, 1, 2]) (some 0) (some 2)
      (initClusterState [0, 1, 2]) [0, 1, 2]).2.1.getRec 2 =
      (initClusterState [0, 1, 2]).getRec 2 := by
  have h := C6_failed_merge_frame exEnvChain (some 0) (some 2) [0, 1, 2]
    (ufInv_init [0, 1, 2] (by decide)) (by decide)
  exact ⟨h.1, h.2.1 0, h.2.2.2.2.2 2 rfl (by decide)⟩

/-- C9: after any sequence of driver merge attempts on the freshly
populated cluster map, every tracked op resolves through the `mergedInto`
links (with path compression) to a root whose link is absent, appears in
that root's op list, and appears in no other root's op list. -/
theorem C9_unionFind (env : Env) (dom : List Nat) (blk : List Nat)
    (cmds : List (Nat × Nat)) (hnd : dom.Nodup) :
    ∀ op, op ∈ dom →
      ∃ ci r, opcOf dom op = some ci ∧
        rootOf (applyMerges env (opcOf dom) cmds (initClusterState dom, blk)).1 ci =
          some r ∧
        parentOf (applyMerges env (opcOf dom) cmds (initClusterState dom, blk)).1 r =
          none ∧
        op ∈ ((applyMerges env (opcOf dom) cmds
          (initClusterState dom, blk)).1.getRec r).operations ∧
        ∀ r', parentOf (applyMerges env (opcOf dom) cmds
            (initClusterState dom, blk)).1 r' = none →
          op ∈ ((applyMerges env (opcOf dom) cmds
            (initClusterState dom, blk)).1.getRec r').operations → r' = r := by
  intro op hop
  have hUF := ufInv_applyMerges env cmds (initClusterState dom, blk) (ufInv_init dom hnd)
  obtain ⟨ci, hci, hcilt⟩ := hUF.opcRange op hop
  obtain ⟨r, hr⟩ := rootOf_total hUF.acyc ci
  refine ⟨ci, r, hci, hr, rootOf_isRoot hr, hUF.memRoot op ci r hci hr, ?_⟩
  intro r' hroot' hmem'
  obtain ⟨ci', hci', hr'⟩ := hUF.opsOwn r' op hmem'
  have hceq : ci' = ci := by
    rw [hci] at hci'
    exact (Option.some.inj hci').symm
  subst hceq
  rw [hr] at hr'
  exact (Option.some.inj hr').symm

/-- C9 witness: the invariant theorem applied to the chain environment,
three singleton clusters and two concrete merge attempts. -/
theorem C9_unionFind_witness :
    ∃ ci r, opcOf [0, 1, 2] 1 = some ci ∧
      rootOf (applyMerges exEnvChain (opcOf [0, 1, 2]) [(0, 1), (1, 2)]
        (initClusterState [0, 1, 2], [0, 1, 2])).1 ci = some r ∧
      parentOf (applyMerges exEnvChain (opcOf [0, 1, 2]) [(0, 1), (1, 2)]
        (initClusterState [0, 1, 2], [0, 1, 2])).1 r = none ∧
      1 ∈ ((applyMerges exEnvChain (opcOf [0, 1, 2]) [(0, 1), (1, 2)]
        (initClusterState [0, 1, 2], [0, 1, 2])).1.getRec r).operations ∧
      ∀ r', parentOf (applyMerges exEnvChain (opcOf [0, 1, 2]) [(0, 1), (1, 2)]
          (initClusterState [0, 1, 2], [0, 1, 2])).1 r' = none →
        1 ∈ ((applyMerges exEnvChain (opcOf [0, 1, 2]) [(0, 1), (1, 2)]
          (initClusterState [0, 1, 2], [0, 1, 2])).1.getRec r').operations → r' = r :=
  C9_unionFind exEnvChain [0, 1, 2] [0, 1, 2] [(0, 1), (1, 2)] (by decide) 1 (by decide)

/-- C4: during the move-set computations, every op left in the residual
pulls its entire root cluster with it — each cluster mate is in the
residual and outside the move-up (resp. move-down) set, so no cluster
contributes only part of its members to a move set. -/
theorem C4_wholeClusterRejection (env : Env) {dom : List Nat}
    {opc : Nat → Option Nat} {s : ClusterState} (target vec : List Nat)
    (hUF : UFInv dom opc s) (hvn : vec.Nodup) :
    (∀ o, o ∈ (computeMoveUpSet env opc target vec s).2.1 →
      ∀ ci, opc o = some ci → ∀ r, rootOf s ci = some r →
        ∀ m, m ∈ (s.getRec r).operations →
          m ∈ (computeMoveUpSet env opc target vec s).2.1 ∧
          m ∉ (computeMoveUpSet env opc target vec s).1) ∧
    (∀ o, o ∈ (computeMoveDownSet env opc target vec s).2.1 →
      ∀ ci, opc o = some ci → ∀ r, rootOf s ci = some r →
        ∀ m, m ∈ (s.getRec r).operations →
          m ∈ (computeMoveDownSet env opc target vec s).2.1 ∧
          m ∉ (computeMoveDownSet env opc target vec s).1) := by
  have p1 := computeMoveUpSet_post env opc target vec hUF.acyc
    (ufInv_coherent hUF) (compressed_refl s) hvn
  have p2 := computeMoveDownSet_post env opc target vec hUF.acyc
    (ufInv_coherent hUF) (compressed_refl s) hvn
  exact ⟨p1.2.2.2.2.2.2.2.1, p2.2.2.2.2.2.2.2.1⟩

/-- C4 witness: the cascade theorem applied to the chain environment with
gap op 1 between target cluster `{0}` and the rest. -/
theorem C4_wholeClusterRejection_witness :
    (∀ o, o ∈ (computeMoveUpSet exEnvChain (opcOf [0, 1, 2]) [0] [1]
        (initClusterState [0, 1, 2])).2.1 →
      ∀ ci, opcOf [0, 1, 2] o = some ci →
        ∀ r, rootOf (initClusterState [0, 1, 2]) ci = some r →
          ∀ m, m ∈ ((initClusterState [0, 1, 2]).getRec r).operations →
            m ∈ (computeMoveUpSet exEnvChain (opcOf [0, 1, 2]) [0] [1]
              (initClusterState [0, 1, 2])).2.1 ∧
            m ∉ (computeMoveUpSet exEnvChain (opcOf [0, 1, 2]) [0] [1]
              (initClusterState [0, 1, 2])).1) ∧
    (∀ o, o ∈ (computeMoveDownSet exEnvChain (opcOf [0, 1, 2]) [0] [1]
        (initClusterState [0, 1, 2])).2.1 →
      ∀ ci, opcOf [0, 1, 2] o = some ci →
        ∀ r, rootOf (initClusterState [0, 1, 2]) ci = some r →
          ∀ m, m ∈ ((initClusterState [0, 1, 2]).getRec r).operations →
            m ∈ (computeMoveDownSet exEnvChain (opcOf [0, 1, 2]) [0] [1]
              (initClusterState [0, 1, 2])).2.1 ∧
            m ∉ (computeMoveDownSet exEnvChain (opcOf [0, 1, 2]) [0] [1]
              (initClusterState [0, 1, 2])).1) :=
  C4_wholeClusterRejection exEnvChain [0] [1]
    (ufInv_init [0, 1, 2] (by decide)) (by decide)

/-- C5: for two distinct root clusters, `tryMerge` first attempts to merge
`lhs` into `rhs` and only on failure attempts `rhs` into `lhs`, returning
the surviving root on success and `none` when both fail; and a directed
attempt succeeds exactly when every op strictly between the two clusters
is assigned to the move-up set or the move-down set (empty residual). -/
theorem C5_tryMerge_order_and_success (env : Env) {dom : List Nat}
    {opc : Nat → Option Nat} {s : ClusterState} (l r : Nat) (blk : List Nat)
    (hUF : UFInv dom opc s) (hlr : l ≠ r)
    (hl : parentOf s l = none) (hr : parentOf s r = none) :
    (tryMerge env opc (some l) (some r) s blk =
      (if (tryMergeInto env opc l r s blk).1 then
        (some r, (tryMergeInto env opc l r s blk).2.1,
          (tryMergeInto env opc l r s blk).2.2)
       else if (tryMergeInto env opc r l (tryMergeInto env opc l r s blk).2.1
          (tryMergeInto env opc l r s blk).2.2).1 then
        (some l, (tryMergeInto env opc r l (tryMergeInto env opc l r s blk).2.1
          (tryMergeInto env opc l r s blk).2.2).2.1,
         (tryMergeInto env opc r l (tryMergeInto env opc l r s blk).2.1
          (tryMergeInto env opc l r s blk).2.2).2.2)
       else
        (none, (tryMergeInto env opc r l (tryMergeInto env opc l r s blk).2.1
          (tryMergeInto env opc l r s blk).2.2).2.1,
         (tryMergeInto env opc r l (tryMergeInto env opc l r s blk).2.1
          (tryMergeInto env opc l r s blk).2.2).2.2))) ∧
    ((mergeGapOf s blk l r).Nodup →
      gapClosedB opc s (mergeGapOf s blk l r) = true →
      ((tryMergeInto env opc l r s blk).1 = true ↔
        ∀ o, o ∈ mergeGapOf s blk l r →
          o ∈ (mergeComputation env opc l r s blk).1 ∨
          o ∈ (mergeComputation env opc l r s blk).2.1)) := by
  constructor
  · unfold tryMerge
    dsimp only
    rw [if_neg hlr, if_neg (by rw [hl, hr]; simp)]
  · intro hgn hgc
    rw [tryMergeInto_fst env opc l r s blk, List.isEmpty_iff]
    exact mergeComputation_post env l r blk hUF hgn hgc

/-- C5 witness: the theorem applied to the chain environment, where the
merge of `{0}` into `{2}` fails because gap op 1 reaches neither move
set. -/
theorem C5_tryMerge_order_and_success_witness :
    (mergeGapOf (initClusterState [0, 1, 2]) [0, 1, 2] 0 2).Nodup ∧
    ((tryMergeInto exEnvChain (opcOf [0, 1, 2]) 0 2
      (initClusterState [0, 1, 2]) [0, 1, 2]).1 = true ↔
      ∀ o, o ∈ mergeGapOf (initClusterState [0, 1, 2]) [0, 1, 2] 0 2 →
        o ∈ (mergeComputation exEnvChain (opcOf [0, 1, 2]) 0 2
          (initClusterState [0, 1, 2]) [0, 1, 2]).1 ∨
        o ∈ (mergeComputation exEnvChain (opcOf [0, 1, 2]) 0 2
          (initClusterState [0, 1, 2]) [0, 1, 2]).2.1) := by
  refine ⟨by decide, ?_⟩
  exact (C5_tryMerge_order_and_success exEnvChain 0 2 [0, 1, 2]
    (ufInv_init [0, 1, 2] (by decide)) (by decide) (by decide) (by decide)).2
    (by decide) (by decide)

/-- C1 counterexample: op 0 is host only through the operand-chain closure
(it defines an operand of the host op 1). It is in the closure set `H`
computed by the fallback strategy, yet the clustering constructor still
gives it a singleton cluster — it is entered into a cluster, contradicting
the claim for the top-down/bottom-up strategies. -/
theorem C1_counterexample :
    0 ∈ hostOpsFallback exEnvHostPair [0, 1] ∧
    0 ∈ initialClusterOps exEnvHostPair [0, 1] := by
  decide

/-- C1 (amended): only directly host ops (attribute "host" on the op or in
a nested region) and host-only constants are excluded from clusters — an
op that is host merely through the operand-chain closure is still
clustered; in the fallback strategy, the ops of the closure `H` never
appear in the device metadata entry. -/
theorem C1_hostExclusion (env : Env) (blk : List Nat) (da an : String)
    (v : Option (List Nat → Bool)) :
    (∀ i, i ∈ initialClusterOps env blk → isHostOp env i = false ∧ i ∈ blk) ∧
    (∀ i, i ∈ blk → isHostOp env i = false → skipForHostConstant env i = false →
      i ∈ initialClusterOps env blk) ∧
    (∀ metas, getFunctionMetadatasFallback env blk da an v = some metas →
      an ≠ hostAnchorName →
      ∀ m, m ∈ metas → m.anchorName = an →
        ∀ i, i ∈ hostOpsFallback env blk → i ∉ m.ops) := by
  refine ⟨?_, ?_, ?_⟩
  · intro i hi
    rw [initialClusterOps, List.mem_filter] at hi
    obtain ⟨hmem, hcond⟩ := hi
    simp only [Bool.and_eq_true, Bool.not_eq_true'] at hcond
    exact ⟨hcond.1, hmem⟩
  · intro i hb hhost hskip
    rw [initialClusterOps, List.mem_filter]
    refine ⟨hb, ?_⟩
    rw [hhost, hskip]
    rfl
  · intro metas hsome han m hm hanchor i hiH
    unfold getFunctionMetadatasFallback at hsome
    dsimp only at hsome
    have hhostAnchor : ∀ mh, mh ∈ (if 0 < (hostOpsFallback env blk).length then
        [(⟨hostAnchorName, "host",
          blk.filter (fun j => (hostOpsFallback env blk).contains j)⟩ : FunctionMetadata)]
        else []) → mh.anchorName = hostAnchorName := by
      intro mh hmh
      by_cases hh : 0 < (hostOpsFallback env blk).length
      · rw [if_pos hh] at hmh
        rw [List.mem_singleton.1 hmh]
      · rw [if_neg hh] at hmh
        exact absurd hmh (List.not_mem_nil mh)
    by_cases hdev : 0 < (blk.filter (fun j => !((hostOpsFallback env blk).contains j))).length
    · rw [if_pos hdev] at hsome
      have hdone : metas = (if 0 < (hostOpsFallback env blk).length then
          [(⟨hostAnchorName, "host",
            blk.filter (fun j => (hostOpsFallback env blk).contains j)⟩ : FunctionMetadata)]
          else []) ++
          [⟨an, da, blk.filter (fun j => !((hostOpsFallback env blk).contains j))⟩] := by
        cases v with
        | none =>
          dsimp only at hsome
          exact (Option.some.inj hsome).symm
        | some f =>
          dsimp only at hsome
          by_cases hrej : !(f (blk.filter (fun j => !((hostOpsFallback env blk).contains j))))
          · rw [if_pos hrej] at hsome
            exact Option.noConfusion hsome
          · rw [if_neg hrej] at hsome
            exact (Option.some.inj hsome).symm
      subst hdone
      rcases List.mem_append.1 hm with hmh | hmd
      · exact absurd (hanchor.symm.trans (hhostAnchor m hmh)) han
      · have hmeq := List.mem_singleton.1 hmd
        subst hmeq
        intro hmem
        rw [List.mem_filter] at hmem
        rw [containsIff.2 hiH] at hmem
        exact Bool.noConfusion hmem.2
    · rw [if_neg hdev] at hsome
      have hdone : metas = (if 0 < (hostOpsFallback env blk).length then
          [(⟨hostAnchorName, "host",
            blk.filter (fun j => (hostOpsFallback env blk).contains j)⟩ : FunctionMetadata)]
          else []) := (Option.some.inj hsome).symm
      subst hdone
      exact absurd (hanchor.symm.trans (hhostAnchor m hm)) han

/-- C1 (amended) witness: in the triple environment the independent op 2
is clustered and absent from the fallback device entry, while the closure
ops 0 and 1 form the host entry. -/
theorem C1_hostExclusion_witness :
    (isHostOp exEnvHostTriple 2 = false ∧ 2 ∈ [0, 1, 2]) ∧
    2 ∈ initialClusterOps exEnvHostTriple [0, 1, 2] ∧
    0 ∉ (⟨"dev.anchor", "cuda", [2]⟩ : FunctionMetadata).ops := by
  have h := C1_hostExclusion exEnvHostTriple [0, 1, 2] "cuda" "dev.anchor" none
  refine ⟨h.1 2 (by decide), h.2.1 2 (by decide) (by decide) (by decide), ?_⟩
  exact h.2.2 [⟨hostAnchorName, "host", [0, 1]⟩, ⟨"dev.anchor", "cuda", [2]⟩]
    (by decide) (by decide) ⟨"dev.anchor", "cuda", [2]⟩ (by decide) rfl 0 (by decide)

/-- C8: the fallback strategy performs no merging and is fully
characterized by: it returns `none` exactly when the device remainder is
nonempty and the validator rejects it; otherwise it returns, in block
order, an optional host entry holding exactly the ops of the closure `H`
(present iff `H` is nonempty, independent of the validator) followed by an
optional device entry holding the remaining non-terminator ops (present
iff that set is nonempty) — at most two entries. -/
theorem C8_fallback_characterization (env : Env) (blk : List Nat)
    (da an : String) (v : Option (List Nat → Bool)) :
    (getFunctionMetadatasFallback env blk da an v = none ↔
      0 < (blk.filter (fun i => !((hostOpsFallback env blk).contains i))).length ∧
      ∃ f, v = some f ∧
        f (blk.filter (fun i => !((hostOpsFallback env blk).contains i))) = false) ∧
    (∀ metas, getFunctionMetadatasFallback env blk da an v = some metas →
      metas =
        (if 0 < (hostOpsFallback env blk).length then
          [⟨hostAnchorName, "host",
            blk.filter (fun i => (hostOpsFallback env blk).contains i)⟩]
         else []) ++
        (if 0 < (blk.filter (fun i => !((hostOpsFallback env blk).contains i))).length then
          [⟨an, da, blk.filter (fun i => !((hostOpsFallback env blk).contains i))⟩]
         else []) ∧
      metas.length ≤ 2) := by
  have hlen : ∀ (l1 l2 : List FunctionMetadata), l1.length ≤ 1 → l2.length ≤ 1 →
      (l1 ++ l2).length ≤ 2 := by
    intro l1 l2 h1 h2
    rw [List.length_append]
    omega
  constructor
  · unfold getFunctionMetadatasFallback
    dsimp only
    by_cases hdev : 0 < (blk.filter (fun i => !((hostOpsFallback env blk).contains i))).length
    · rw [if_pos hdev]
      cases v with
      | none =>
        dsimp only
        constructor
        · intro h; exact Option.noConfusion h
        · rintro ⟨_, f, hf, _⟩; exact Option.noConfusion hf
      | some f =>
        dsimp only
        by_cases hrej : !(f (blk.filter (fun i => !((hostOpsFallback env blk).contains i))))
        · rw [if_pos hrej]
          simp only [true_iff]
          refine ⟨hdev, f, rfl, ?_⟩
          cases hfc : f (blk.filter (fun i => !((hostOpsFallback env blk).contains i))) with
          | false => rfl
          | true => rw [hfc] at hrej; exact Bool.noConfusion hrej
        · rw [if_neg hrej]
          constructor
          · intro h; exact Option.noConfusion h
          · rintro ⟨_, f', hf', hfc⟩
            have hfeq : f = f' := Option.some.inj hf'
            subst hfeq
            rw [hfc] at hrej
            exact absurd rfl hrej
    · rw [if_neg hdev]
      constructor
      · intro h; exact Option.noConfusion h
      · rintro ⟨hd, _⟩; exact absurd hd hdev
  · intro metas hsome
    unfold getFunctionMetadatasFallback at hsome
    dsimp only at hsome
    by_cases hdev : 0 < (blk.filter (fun i => !((hostOpsFallback env blk).contains i))).length
    · rw [if_pos hdev] at hsome
      rw [if_pos hdev]
      have hmetas : metas = (if 0 < (hostOpsFallback env blk).length then
          [(⟨hostAnchorName, "host",
            blk.filter (fun i => (hostOpsFallback env blk).contains i)⟩ : FunctionMetadata)]
          else []) ++
          [⟨an, da, blk.filter (fun i => !((hostOpsFallback env blk).contains i))⟩] := by
        cases v with
        | none =>
          dsimp only at hsome
          exact (Option.some.inj hsome).symm
        | some f =>
          dsimp only at hsome
          by_cases hrej : !(f (blk.filter (fun i => !((hostOpsFallback env blk).contains i))))
          · rw [if_pos hrej] at hsome
            exact Option.noConfusion hsome
          · rw [if_neg hrej] at hsome
            exact (Option.some.inj hsome).symm
      refine ⟨hmetas, ?_⟩
      rw [hmetas]
      refine hlen _ _ ?_ (by exact Nat.le_refl 1)
      by_cases hh : 0 < (hostOpsFallback env blk).length
      · rw [if_pos hh]; exact Nat.le_refl 1
      · rw [if_neg hh]; exact Nat.zero_le 1
    · rw [if_neg hdev] at hsome
      rw [if_neg hdev]
      have hmetas : metas = (if 0 < (hostOpsFallback env blk).length then
          [(⟨hostAnchorName, "host",
            blk.filter (fun i => (hostOpsFallback env blk).contains i)⟩ : FunctionMetadata)]
          else []) := (Option.some.inj hsome).symm
      refine ⟨by rw [hmetas, List.append_nil], ?_⟩
      rw [hmetas]
      by_cases hh : 0 < (hostOpsFallback env blk).length
      · rw [if_pos hh]; exact (by decide : (1 : Nat) ≤ 2)
      · rw [if_neg hh]; exact Nat.zero_le 2

/-- C8 witness: the characterization applied to the triple environment
with an accepting validator: host entry `[0, 1]` then device entry `[2]`,
at most two entries. -/
theorem C8_fallback_characterization_witness :
    ([⟨hostAnchorName, "host", [0, 1]⟩,
      ⟨"dev.anchor", "cuda", [2]⟩] : List FunctionMetadata) =
      (if 0 < (hostOpsFallback exEnvHostTriple [0, 1, 2]).length then
        [⟨hostAnchorName, "host", [0, 1, 2].filter
          (fun i => (hostOpsFallback exEnvHostTriple [0, 1, 2]).contains i)⟩]
       else []) ++
      (if 0 < ([0, 1, 2].filter
          (fun i => !((hostOpsFallback exEnvHostTriple [0, 1, 2]).contains i))).length then
        [⟨"dev.anchor", "cuda", [0, 1, 2].filter
          (fun i => !((hostOpsFallback exEnvHostTriple [0, 1, 2]).contains i))⟩]
       else []) ∧
    ([⟨hostAnchorName, "host", [0, 1]⟩,
      ⟨"dev.anchor", "cuda", [2]⟩] : List FunctionMetadata).length ≤ 2 :=
  (C8_fallback_characterization exEnvHostTriple [0, 1, 2] "cuda" "dev.anchor"
    (some (fun _ => true))).2
    [⟨hostAnchorName, "host", [0, 1]⟩, ⟨"dev.anchor", "cuda", [2]⟩] (by decide)

theorem buildRetIndices_eq_reverse (ret : List Nat) (v : Nat) :
    buildRetIndices ret v = (posIdx ret v).reverse := rfl

theorem posIdx_cons (a v : Nat) (tl : List Nat) :
    posIdx (a :: tl) v =
      (if a = v then [0] else []) ++ (posIdx tl v).map (· + 1) := by
  unfold posIdx
  rw [List.length_cons, List.range_succ_eq_map, List.filter_cons]
  have hmap : List.filter (fun i => (a :: tl)[i]? == some v)
      (List.map Nat.succ (List.range tl.length)) =
      List.map Nat.succ (List.filter (fun i => tl[i]? == some v) (List.range tl.length)) := by
    rw [List.filter_map]
    refine congrArg (List.map Nat.succ) (List.filter_congr ?_)
    intro i _
    show ((a :: tl)[i + 1]? == some v) = (tl[i]? == some v)
    rw [List.getElem?_cons_succ]
  rw [hmap]
  have hsucc : List.map Nat.succ (List.filter (fun i => tl[i]? == some v)
      (List.range tl.length)) =
      (List.filter (fun i => tl[i]? == some v) (List.range tl.length)).map (· + 1) := rfl
  rw [hsucc]
  by_cases hav : a = v
  · rw [if_pos hav, if_pos (by show ((a :: tl)[0]? == some v) = true; subst hav; simp)]
    rfl
  · rw [if_neg hav, if_neg (by show ¬((a :: tl)[0]? == some v) = true; simpa using hav)]
    rfl

theorem posIdx_head? (ret : List Nat) (v : Nat) :
    ret.findIdx? (fun x => x == v) = (posIdx ret v).head? := by
  induction ret with
  | nil => rfl
  | cons a tl ih =>
    rw [posIdx_cons]
    by_cases hav : a = v
    · rw [if_pos hav]
      subst hav
      simp [List.findIdx?_cons]
    · rw [if_neg hav]
      rw [List.findIdx?_cons, if_neg (by simpa using hav), List.findIdx?_succ, ih]
      simp

theorem mem_posIdx {ret : List Nat} {v i : Nat} :
    i ∈ posIdx ret v ↔ i < ret.length ∧ ret[i]? = some v := by
  unfold posIdx
  rw [List.mem_filter, List.mem_range]
  constructor
  · rintro ⟨h1, h2⟩
    exact ⟨h1, by simpa using h2⟩
  · rintro ⟨h1, h2⟩
    exact ⟨h1, by simp [h2]⟩

theorem posIdx_nodup (ret : List Nat) (v : Nat) : (posIdx ret v).Nodup :=
  List.Nodup.filter _ (List.nodup_range _)

theorem posIdx_length (ret : List Nat) (v : Nat) :
    (posIdx ret v).length = ret.count v := by
  induction ret with
  | nil => rfl
  | cons a tl ih =>
    rw [posIdx_cons, List.length_append, List.length_map, ih]
    by_cases hav : a = v
    · rw [if_pos hav, List.count_cons, if_pos (by simpa using hav)]
      simp [Nat.add_comm]
    · rw [if_neg hav, List.count_cons, if_neg (by simpa using hav)]
      simp

theorem posIdx_set_head {ret : List Nat} {v n i : Nat} {rest : List Nat}
    (hA : posIdx ret v = i :: rest) (hnv : n ≠ v) :
    posIdx (ret.set i n) v = rest := by
  have hiA : i ∈ posIdx ret v := by rw [hA]; exact List.mem_cons_self i rest
  obtain ⟨hilen, hival⟩ := mem_posIdx.1 hiA
  have hcongr : List.filter (fun j => (ret.set i n)[j]? == some v)
      (List.range ret.length) =
      List.filter (fun j => !(j == i) && (ret[j]? == some v)) (List.range ret.length) := by
    refine List.filter_congr ?_
    intro j _
    by_cases hji : j = i
    · subst hji
      rw [List.getElem?_set_self (by simpa using hilen)]
      simp [hnv]
    · rw [List.getElem?_set_ne (by omega)]
      simp [hji]
  unfold posIdx
  rw [List.length_set, hcongr]
  have hswap : List.filter (fun j => !(j == i) && (ret[j]? == some v))
      (List.range ret.length) =
      List.filter (fun j => !(j == i))
        (List.filter (fun j => ret[j]? == some v) (List.range ret.length)) :=
    (List.filter_filter (fun j => ret[j]? == some v) (List.range ret.length)).symm
  rw [hswap]
  have : List.filter (fun j => ret[j]? == some v) (List.range ret.length) = i :: rest := hA
  rw [this]
  rw [List.filter_cons, if_neg (by simp)]
  refine List.filter_eq_self.2 ?_
  intro j hj
  have hnd := posIdx_nodup ret v
  rw [hA] at hnd
  have : j ≠ i := by
    intro hji
    subst hji
    exact (List.nodup_cons.1 hnd).1 hj
  simpa using this

theorem posIdx_set_ne {ret : List Nat} {v w n i : Nat}
    (hival : ret[i]? = some v) (hvw : v ≠ w) (hnw : n ≠ w) :
    posIdx (ret.set i n) w = posIdx ret w := by
  unfold posIdx
  rw [List.length_set]
  refine List.filter_congr ?_
  intro j _
  by_cases hji : j = i
  · subst hji
    by_cases hlen : j < ret.length
    · rw [List.getElem?_set_self (by simpa using hlen), hival]
      simp [hvw, hnw]
    · rw [List.getElem?_eq_none (by omega)] at hival
      exact Option.noConfusion hival
  · rw [List.getElem?_set_ne (by omega)]

theorem getLastD_cons_spec (p : Nat) (ps : List Nat) :
    (p :: ps).getLast? = some ((p :: ps).getLastD 0) ∧
    (p :: ps).getLastD 0 ∈ p :: ps := by
  have hne : p :: ps ≠ [] := List.cons_ne_nil p ps
  have h2 : (p :: ps).getLastD 0 = (p :: ps).getLast hne := rfl
  constructor
  · rw [h2]
    exact List.getLast?_eq_getLast _ hne
  · rw [h2]
    exact List.getLast_mem hne

theorem createCallsLoop_ret_spec :
    ∀ (pairs : List (Nat × Nat)) (ops : List (List Nat)) (ret : List Nat)
      (idx : Nat → List Nat),
      (∀ w, (∃ nn, (w, nn) ∈ pairs) → idx w = buildRetIndices ret w) →
      (∀ p q, p ∈ pairs → q ∈ pairs → p.2 ≠ q.1) →
      (createCallsLoop true pairs ⟨ops, ret⟩ idx).1.ret =
        replaceFirstRemaining pairs ret := by
  intro pairs
  induction pairs with
  | nil =>
    intro ops ret idx _ _
    rw [createCallsLoop, replaceFirstRemaining]
  | cons pr rest ih =>
    obtain ⟨v, n⟩ := pr
    intro ops ret idx hidx hfresh
    have hnv : n ≠ v := hfresh (v, n) (v, n) (List.mem_cons_self _ _) (List.mem_cons_self _ _)
    have hiv : idx v = buildRetIndices ret v :=
      hidx v ⟨n, List.mem_cons_self _ _⟩
    rw [createCallsLoop, replaceFirstRemaining, if_pos rfl]
    dsimp only
    cases hB : buildRetIndices ret v with
    | nil =>
      rw [hiv, hB]
      have hf : ret.findIdx? (fun x => x == v) = none := by
        rw [posIdx_head?]
        have : posIdx ret v = [] := by
          have := congrArg List.reverse hB
          rwa [buildRetIndices_eq_reverse, List.reverse_reverse, List.reverse_nil] at this
        rw [this]
        rfl
      rw [hf]
      dsimp only
      refine ih _ _ _ ?_ ?_
      · intro w hw
        obtain ⟨nn, hnn⟩ := hw
        exact hidx w ⟨nn, List.mem_cons_of_mem _ hnn⟩
      · intro p q hp hq
        exact hfresh p q (List.mem_cons_of_mem _ hp) (List.mem_cons_of_mem _ hq)
    | cons p ps =>
      rw [hiv, hB]
      dsimp only
      have hpos : posIdx ret v = (p :: ps).reverse := by
        have := congrArg List.reverse hB
        rwa [buildRetIndices_eq_reverse, List.reverse_reverse] at this
      obtain ⟨hlast?, hlastmem⟩ := getLastD_cons_spec p ps
      have hf : ret.findIdx? (fun x => x == v) = some ((p :: ps).getLastD 0) := by
        rw [posIdx_head?, hpos, List.head?_reverse]
        exact hlast?
      rw [hf]
      dsimp only
      have himem : (p :: ps).getLastD 0 ∈ buildRetIndices ret v := by
        rw [hB]
        exact hlastmem
      have himem' : (p :: ps).getLastD 0 ∈ posIdx ret v := by
        rw [hpos, List.mem_reverse]
        rw [hB] at himem
        exact himem
      obtain ⟨hilen, hival⟩ := mem_posIdx.1 himem'
      have hdecomp : (p :: ps).dropLast ++ [(p :: ps).getLastD 0] = p :: ps :=
        List.dropLast_append_getLast (List.cons_ne_nil p ps)
      have hsetidx : posIdx (ret.set ((p :: ps).getLastD 0) n) v = (p :: ps).dropLast.reverse := by
        refine posIdx_set_head ?_ hnv
        rw [hpos]
        conv_lhs => rw [← hdecomp]
        rw [List.reverse_append]
        rfl
      refine ih _ _ _ ?_ ?_
      · intro w hw
        obtain ⟨nn, hnn⟩ := hw
        by_cases hwv : w = v
        · subst hwv
          rw [if_pos rfl, buildRetIndices_eq_reverse, hsetidx, List.reverse_reverse]
        · rw [if_neg hwv]
          have hold : idx w = buildRetIndices ret w :=
            hidx w ⟨nn, List.mem_cons_of_mem _ hnn⟩
          rw [hold, buildRetIndices_eq_reverse, buildRetIndices_eq_reverse]
          rw [posIdx_set_ne hival (fun hc => hwv hc.symm)
            (hfresh (v, n) (w, nn) (List.mem_cons_self _ _) (List.mem_cons_of_mem _ hnn))]
      · intro pq qq hp hq
        exact hfresh pq qq (List.mem_cons_of_mem _ hp) (List.mem_cons_of_mem _ hq)

theorem substOps_cons (v n : Nat) (rest : List (Nat × Nat)) (ops : List (List Nat)) :
    substOps ((v, n) :: rest) ops = substOps rest (replaceUsesInOps ops v n) := rfl

theorem createCallsLoop_ops_spec (dup : Bool) :
    ∀ (pairs : List (Nat × Nat)) (ops : List (List Nat)) (ret : List Nat)
      (idx : Nat → List Nat),
      (createCallsLoop dup pairs ⟨ops, ret⟩ idx).1.ops = substOps pairs ops := by
  intro pairs
  induction pairs with
  | nil =>
    intro ops ret idx
    rfl
  | cons pr rest ih =>
    obtain ⟨v, n⟩ := pr
    intro ops ret idx
    rw [createCallsLoop, substOps_cons]
    cases dup with
    | false =>
      rw [if_neg (by decide)]
      exact ih _ _ _
    | true =>
      rw [if_pos rfl]
      dsimp only
      cases hI : idx v with
      | nil =>
        dsimp only
        exact ih _ _ _
      | cons p ps =>
        dsimp only
        exact ih _ _ _

theorem createCallsLoop_false_ret :
    ∀ (pairs : List (Nat × Nat)) (ops : List (List Nat)) (ret : List Nat)
      (idx : Nat → List Nat),
      (createCallsLoop false pairs ⟨ops, ret⟩ idx).1.ret = substRet pairs ret := by
  intro pairs
  induction pairs with
  | nil =>
    intro ops ret idx
    rfl
  | cons pr rest ih =>
    obtain ⟨v, n⟩ := pr
    intro ops ret idx
    rw [createCallsLoop, if_neg (by decide)]
    exact ih _ _ _

theorem replaceFirstRemaining_count :
    ∀ (pairs : List (Nat × Nat)) (ret : List Nat) (v : Nat),
      (∀ p, p ∈ pairs → p.2 ≠ v) →
      (replaceFirstRemaining pairs ret).count v =
        ret.count v - pairs.countP (fun p => p.1 == v) := by
  intro pairs
  induction pairs with
  | nil =>
    intro ret v _
    simp [replaceFirstRemaining]
  | cons pr rest ih =>
    obtain ⟨w, n⟩ := pr
    intro ret v hne
    have hnv : n ≠ v := hne (w, n) (List.mem_cons_self _ _)
    have hrest : ∀ p, p ∈ rest → p.2 ≠ v :=
      fun p hp => hne p (List.mem_cons_of_mem _ hp)
    have hcountP : List.countP (fun p => p.1 == v) ((w, n) :: rest) =
        (if w = v then 1 else 0) + List.countP (fun p => p.1 == v) rest := by
      rw [List.countP_cons]
      by_cases hwv : w = v
      · simp [hwv, Nat.add_comm]
      · simp [hwv]
    rw [replaceFirstRemaining]
    cases hf : ret.findIdx? (fun x => x == w) with
    | none =>
      dsimp only
      rw [ih ret v hrest, hcountP]
      rw [posIdx_head?] at hf
      have hnil : posIdx ret w = [] := by
        cases hp : posIdx ret w with
        | nil => rfl
        | cons a tl =>
          rw [hp] at hf
          exact Option.noConfusion hf
      by_cases hwv : w = v
      · subst hwv
        have hc0 : ret.count w = 0 := by
          rw [← posIdx_length, hnil]
          rfl
        rw [hc0]
        simp
      · rw [if_neg hwv]
        simp
    | some i =>
      dsimp only
      rw [ih (ret.set i n) v hrest, hcountP]
      rw [posIdx_head?] at hf
      obtain ⟨tl, htl⟩ : ∃ tl, posIdx ret w = i :: tl := by
        cases hp : posIdx ret w with
        | nil =>
          rw [hp] at hf
          exact Option.noConfusion hf
        | cons a tl =>
          rw [hp] at hf
          exact ⟨tl, by rw [Option.some.inj hf]⟩
      have himem : i ∈ posIdx ret w := by
        rw [htl]
        exact List.mem_cons_self _ _
      obtain ⟨hilen, hival⟩ := mem_posIdx.1 himem
      by_cases hwv : w = v
      · subst hwv
        have hset : posIdx (ret.set i n) w = tl := posIdx_set_head htl hnv
        have hc1 : ret.count w = tl.length + 1 := by
          rw [← posIdx_length, htl]
          rfl
        have hc2 : (ret.set i n).count w = tl.length := by
          rw [← posIdx_length, hset]
        rw [hc1, hc2, if_pos rfl]
        omega
      · have hset : posIdx (ret.set i n) v = posIdx ret v :=
          posIdx_set_ne hival hwv hnv
        have hceq : (ret.set i n).count v = ret.count v := by
          rw [← posIdx_length, ← posIdx_length, hset]
        rw [hceq, if_neg hwv]
        simp

/-- C3 counterexample: with terminator operand list `[5, 5]` and a single
result value `5` replaced by `9`, `createCalls` (dup_outputs) consumes
`back()` of the DESCENDING index vector `[1, 0]`, i.e. the LOWEST remaining
index, producing `[9, 5]`; the claimed highest-index ("last remaining
occurrence") behavior would produce `[5, 9]`. -/
theorem C3_counterexample :
    (createCallsOne true ⟨[], [5, 5]⟩ [5] (fun _ => 9)).ret = [9, 5] ∧
    ¬ (createCallsOne true ⟨[], [5, 5]⟩ [5] (fun _ => 9)).ret = [5, 9] := by
  decide

/-- C3 (amended): with `dup_outputs`, for each result (original value `v`,
replacement `n`) in order, all non-terminator uses of `v` are substituted and
the FIRST (lowest-index) remaining occurrence of `v` in the terminator is set
to `n`, consuming one multiplicity — the code pops the back of a descending
index vector, so it consumes the lowest index, not the highest; without
`dup_outputs` all uses including the terminator are substituted
unconditionally; and multiplicity bookkeeping holds: for any value `v` not
among the fresh call results, the rewritten terminator retains
`count ret v - count results v` occurrences of `v`, so a value occurring `k`
times in the terminator with `k` matching results has all `k` occurrences
replaced by cluster-produced values. -/
theorem C3_createCalls (ops : List (List Nat)) (ret : List Nat)
    (results : List Nat) (newVal : Nat → Nat)
    (hfresh : ∀ i v, v ∈ results → newVal i ≠ v) :
    (createCallsOne true ⟨ops, ret⟩ results newVal).ops =
        substOps (results.enum.map (fun p => (p.2, newVal p.1))) ops ∧
    (createCallsOne true ⟨ops, ret⟩ results newVal).ret =
        replaceFirstRemaining (results.enum.map (fun p => (p.2, newVal p.1))) ret ∧
    (createCallsOne false ⟨ops, ret⟩ results newVal).ops =
        substOps (results.enum.map (fun p => (p.2, newVal p.1))) ops ∧
    (createCallsOne false ⟨ops, ret⟩ results newVal).ret =
        substRet (results.enum.map (fun p => (p.2, newVal p.1))) ret ∧
    (∀ v, (∀ i, newVal i ≠ v) →
      (createCallsOne true ⟨ops, ret⟩ results newVal).ret.count v =
        ret.count v - results.count v) := by
  have hmem : ∀ q, q ∈ results.enum → q.2 ∈ results := by
    intro q hq
    have h1 : List.map Prod.snd results.enum = results := List.enumFrom_map_snd 0 results
    rw [← h1]
    exact List.mem_map_of_mem Prod.snd hq
  have hpf : ∀ p q, p ∈ results.enum.map (fun p => (p.2, newVal p.1)) →
      q ∈ results.enum.map (fun p => (p.2, newVal p.1)) → p.2 ≠ q.1 := by
    intro p q hp hq
    obtain ⟨a, ha, rfl⟩ := List.mem_map.1 hp
    obtain ⟨b, hb, rfl⟩ := List.mem_map.1 hq
    exact hfresh a.1 b.2 (hmem b hb)
  have hcount : ∀ v, (results.enum.map (fun p => (p.2, newVal p.1))).countP
      (fun p => p.1 == v) = results.count v := by
    intro v
    rw [List.countP_map]
    have h2 : ((fun (p : Nat × Nat) => p.1 == v) ∘
        (fun (p : Nat × Nat) => (p.2, newVal p.1))) =
        ((fun x => x == v) ∘ Prod.snd) := rfl
    rw [h2, ← List.countP_map]
    show List.countP (fun x => x == v)
      (List.map Prod.snd (List.enumFrom 0 results)) = results.count v
    rw [List.enumFrom_map_snd 0 results]
    rfl
  refine ⟨?_, ?_, ?_, ?_, ?_⟩
  · exact createCallsLoop_ops_spec true _ ops ret _
  · exact createCallsLoop_ret_spec _ ops ret _ (fun w _ => rfl) hpf
  · exact createCallsLoop_ops_spec false _ ops ret _
  · exact createCallsLoop_false_ret _ ops ret _
  · intro v hv
    have hret : (createCallsOne true ⟨ops, ret⟩ results newVal).ret =
        replaceFirstRemaining (results.enum.map (fun p => (p.2, newVal p.1))) ret :=
      createCallsLoop_ret_spec _ ops ret _ (fun w _ => rfl) hpf
    have hp2 : ∀ p, p ∈ results.enum.map (fun p => (p.2, newVal p.1)) → p.2 ≠ v := by
      intro p hp
      obtain ⟨a, ha, rfl⟩ := List.mem_map.1 hp
      exact hv a.1
    rw [hret, replaceFirstRemaining_count _ ret v hp2, hcount v]

theorem C3_createCalls_witness :
    (∀ i v, v ∈ [5, 6] → (fun i => 10 + i) i ≠ v) ∧
    (createCallsOne true ⟨[[5, 6]], [5, 6, 5]⟩ [5, 6] (fun i => 10 + i)).ret =
      [10, 11, 5] := by
  have hf : ∀ i v, v ∈ [5, 6] → (fun i => 10 + i) i ≠ v := by
    intro i v hv
    rcases List.mem_cons.1 hv with h | h
    · subst h
      show 10 + i ≠ 5
      omega
    · rw [List.mem_singleton.1 h]
      show 10 + i ≠ 6
      omega
  refine ⟨hf, ?_⟩
  have h := (C3_createCalls [[5, 6]] [5, 6, 5] [5, 6] (fun i => 10 + i) hf).2.1
  rw [h]
  decide
